import Mathlib

set_option maxRecDepth 8000

/-!
# Verification of the in-memory record stores of `tugas-besar`

A shallow embedding of the two fixed-capacity (255 slot) in-memory stores of
the repository — `lib/repository/user_repository.go` and
`lib/repository/comment_repository.go` together with the package-level state
of `lib/global` — and proofs about their CRUD, search and sort operations.

Modelling conventions:
* Go strings are modelled as `List Char`; `strings.ToLower` as
  `List.map Char.toLower`.
* The global backing arrays `[255]model.User` / `[255]model.Comment` are
  lists of length 255, read with `List.getD` and written with `List.set`.
* Go `int` parameters that the code range-checks are `Int`; the counters
  `UserCount` / `CommentCount` are `Nat` (the code never drives them below
  zero: decrements happen only after an in-range match).
* A Go loop `for i := a; i < b; i++` becomes a structurally recursive
  function over the iteration count `b - a`.
* An out-of-range write into a fixed `[255]` array panics in Go and kills
  the process; `Create` at a full store is therefore modelled as `Option`
  (`none` = runtime panic, no state survives).
* Operations that return `error` but keep executing are modelled as
  `GState × Option (List Char)` (new state, optional error message).
-/

namespace Tugas

/-- `model.User` (lib/model, `part_005`): Id, Username, Password. -/
structure User where
  id : Int
  username : List Char
  password : List Char
deriving DecidableEq, Repr

/-- The Go zero value `model.User{}`. -/
def User.zero : User := ⟨0, [], []⟩

/-- `model.Comment` (lib/model/comment_model.go): Id, UserId, Komentar, Kategori. -/
structure Comment where
  id : Int
  userId : Int
  komentar : List Char
  kategori : List Char
deriving DecidableEq, Repr

/-- The Go zero value `model.Comment{}`. -/
def Comment.zero : Comment := ⟨0, 0, [], []⟩

/-- The package-level state of `lib/global`: both backing arrays, both live
counters and both id-increment counters. -/
structure GState where
  users : List User
  comments : List Comment
  userCount : Nat
  commentCount : Nat
  idUserIncrement : Int
  idCommentIncrement : Int
deriving DecidableEq, Repr

/-- Initial Go state: zero-valued arrays and zero counters. -/
def GState.init : GState :=
  { users := List.replicate 255 User.zero
    comments := List.replicate 255 Comment.zero
    userCount := 0
    commentCount := 0
    idUserIncrement := 0
    idCommentIncrement := 0 }

/-- Well-formedness: the backing arrays have their declared 255 slots and the
live counters stay within capacity (the live records are the contiguous
prefix `[0, liveCount)` by definition of the counters). -/
def GState.WF (s : GState) : Prop :=
  s.users.length = 255 ∧ s.comments.length = 255 ∧
    s.userCount ≤ 255 ∧ s.commentCount ≤ 255

/-- The live comments: the contiguous prefix `[0, CommentCount)`. -/
def liveC (s : GState) : List Comment := s.comments.take s.commentCount

/-- The live users: the contiguous prefix `[0, UserCount)`. -/
def liveU (s : GState) : List User := s.users.take s.userCount

/-- `strings.ToLower`, on the `List Char` model of strings. -/
def strToLower (l : List Char) : List Char := l.map Char.toLower

/-- The innermost `k` loop of `SearchComments` / `SearchUsers`: character-wise
comparison of the pattern against the text starting at the current offset. -/
def matchAt : List Char → List Char → Bool
  | _, [] => true
  | [], _ :: _ => false
  | c :: cs, p :: ps => if c = p then matchAt cs ps else false

/-- The `j` scan of `SearchComments` / `SearchUsers`: Go runs
`for j := 0; j <= len(text)-len(pat); j++` over `int`s, so a pattern longer
than the text is never tried. -/
def strMatch (text pat : List Char) : Bool :=
  decide (pat.length ≤ text.length) &&
    (List.range (text.length - pat.length + 1)).any fun j => matchAt (text.drop j) pat

/-- The shared shape of `SearchComments`, `SearchUsers` and
`GetCommentByUserId`: scan the live prefix of `src` and copy each record that
satisfies `p` into `out` at its original index; `n` is the number of
iterations left, `i` the current index. -/
def sparseLoop (z : α) (p : α → Bool) (src : List α) (out : List α) (i : Nat) : Nat → List α
  | 0 => out
  | n + 1 =>
      sparseLoop z p src
        (if p (src.getD i z) then out.set i (src.getD i z) else out) (i + 1) n

/-- The copy loop at the head of both sort functions:
`for i := 0; i < CommentCount; i++ { out[i] = Comments[i] }`. -/
def copyLoop (z : α) (src : List α) (out : List α) (i : Nat) : Nat → List α
  | 0 => out
  | n + 1 => copyLoop z src (out.set i (src.getD i z)) (i + 1) n

/-- The shift-compaction loop of `DeleteUser` / `DeleteUserComment`:
`for j := i; j < count-1; j++ { a[j] = a[j+1] }`; `n` iterations remain. -/
def shiftLoop (z : α) (l : List α) (j : Nat) : Nat → List α
  | 0 => l
  | n + 1 => shiftLoop z (l.set j (l.getD (j + 1) z)) (j + 1) n

/-! ## Comment repository (`lib/repository/comment_repository.go`) -/

/-- `getCategoryValue` (closure inside `SortCommentsByKategori`):
Positif ↦ 1, Netral ↦ 0, Negatif ↦ -1, anything else ↦ 0. -/
def getCategoryValue (k : List Char) : Int :=
  if k = "Positif".toList then 1
  else if k = "Netral".toList then 0
  else if k = "Negatif".toList then -1
  else 0

/-- `GetAllComments`: `*comments = global.Comments` — the whole backing array
is copied into the caller's array, replacing its previous content. -/
def getAllComments (s : GState) (_out : List Comment) : List Comment :=
  s.comments

/-- `commentRepository.Create`: writes the next comment at index
`CommentCount` with id `IdCommentIncrement + 1`, then increments both
counters.  The array write panics (process death, modelled `none`) when
`CommentCount` is outside the 255 slots. -/
def commentCreate (s : GState) (c : Comment) (userId : Int) : Option GState :=
  if s.commentCount < 255 then
    some { s with
      comments := s.comments.set s.commentCount
        { id := s.idCommentIncrement + 1
          userId := userId
          komentar := c.komentar
          kategori := c.kategori }
      commentCount := s.commentCount + 1
      idCommentIncrement := s.idCommentIncrement + 1 }
  else none

/-- `SearchComments`: case-insensitive substring scan over the live prefix,
writing each match into the caller's array at its original index. -/
def searchComments (s : GState) (search : List Char) (out : List Comment) : List Comment :=
  sparseLoop Comment.zero
    (fun c => strMatch (strToLower c.komentar) (strToLower search))
    s.comments out 0 s.commentCount

/-- `GetCommentByUserId`: copies each live comment owned by `userId` into the
caller's array at its original index. -/
def getCommentByUserId (s : GState) (userId : Int) (out : List Comment) : List Comment :=
  sparseLoop Comment.zero (fun c => decide (c.userId = userId))
    s.comments out 0 s.commentCount

/-- One step of the selection scan of `SortCommentsByComment`: the running
best index is replaced when the candidate's text length is strictly smaller
(mode 0) or strictly greater (mode 1); any other mode never replaces it. -/
def selPick (out : List Comment) (mode : Int) (idx j : Nat) : Nat :=
  if mode = 0 then
    if (out.getD j Comment.zero).komentar.length
        < (out.getD idx Comment.zero).komentar.length then j else idx
  else if mode = 1 then
    if (out.getD j Comment.zero).komentar.length
        > (out.getD idx Comment.zero).komentar.length then j else idx
  else idx

/-- The inner `j` loop of `SortCommentsByComment`, scanning `n` more
candidates starting at `j`. -/
def selFind (out : List Comment) (mode : Int) (idx j : Nat) : Nat → Nat
  | 0 => idx
  | n + 1 => selFind out mode (selPick out mode idx j) (j + 1) n

/-- The conditional swap at the end of each outer iteration of
`SortCommentsByComment`. -/
def selSwap (out : List Comment) (i idx : Nat) : List Comment :=
  if idx ≠ i then
    (out.set i (out.getD idx Comment.zero)).set idx (out.getD i Comment.zero)
  else out

/-- The outer `i` loop of `SortCommentsByComment` (selection sort), with `n`
iterations remaining. -/
def selSortLoop (count : Nat) (mode : Int) (out : List Comment) (i : Nat) : Nat → List Comment
  | 0 => out
  | n + 1 =>
      selSortLoop count mode
        (selSwap out i (selFind out mode i (i + 1) (count - (i + 1)))) (i + 1) n

/-- `SortCommentsByComment`: copy the live prefix into the caller's array,
then selection-sort it by text length (mode 0 ascending, mode 1 descending). -/
def sortCommentsByComment (s : GState) (out : List Comment) (mode : Int) : List Comment :=
  selSortLoop s.commentCount mode
    (copyLoop Comment.zero s.comments out 0 s.commentCount) 0 (s.commentCount - 1)

/-- The inner `j` loop of `SortCommentsByKategori`: shift every element
satisfying `shift` one slot to the right, then drop `cur` into the hole.  The
argument is `j + 1` where `j` is Go's (possibly `-1`) index. -/
def insertLoop (shift : Comment → Bool) (cur : Comment) (out : List Comment) : Nat → List Comment
  | 0 => out.set 0 cur
  | k + 1 =>
      if shift (out.getD k Comment.zero) then
        insertLoop shift cur (out.set (k + 1) (out.getD k Comment.zero)) k
      else out.set (k + 1) cur

/-- The shift predicate of `SortCommentsByKategori`: mode 0 shifts while the
scanned category rank is strictly greater than the current one; any other
mode shifts while it is strictly smaller. -/
def insShift (mode : Int) (cv : Int) (b : Comment) : Bool :=
  if mode = 0 then decide (getCategoryValue b.kategori > cv)
  else decide (getCategoryValue b.kategori < cv)

/-- The outer `i` loop of `SortCommentsByKategori` (insertion sort), with `n`
iterations remaining. -/
def insSortLoop (count : Nat) (mode : Int) (out : List Comment) (i : Nat) : Nat → List Comment
  | 0 => out
  | n + 1 =>
      insSortLoop count mode
        (insertLoop
          (insShift mode (getCategoryValue (out.getD i Comment.zero).kategori))
          (out.getD i Comment.zero) out i) (i + 1) n

/-- `SortCommentsByKategori`: copy the live prefix into the caller's array,
then insertion-sort it by category rank (mode 0 ascending, mode 1
descending). -/
def sortCommentsByKategori (s : GState) (out : List Comment) (mode : Int) : List Comment :=
  insSortLoop s.commentCount mode
    (copyLoop Comment.zero s.comments out 0 s.commentCount) 1 (s.commentCount - 1)

/-- The ownership scan shared by `EditUserComment` and `DeleteUserComment`:
first live index whose comment has the given id and owner. -/
def findOwned (s : GState) (commentId userId : Int) : Option Nat :=
  (s.comments.take s.commentCount).findIdx?
    fun c => decide (c.id = commentId ∧ c.userId = userId)

/-- `EditUserComment`: look for a live comment with the given id owned by
`userId`; patch its non-empty fields in place, or report an error with the
state untouched. -/
def editUserComment (s : GState) (commentId userId : Int) (data : Comment) :
    GState × Option (List Char) :=
  match findOwned s commentId userId with
  | some i =>
      let old := s.comments.getD i Comment.zero
      let patched : Comment :=
        { old with
          komentar := if data.komentar ≠ [] then data.komentar else old.komentar
          kategori := if data.kategori ≠ [] then data.kategori else old.kategori }
      ({ s with comments := s.comments.set i patched }, none)
  | none => (s, some "comment not found or does not belong to user".toList)

/-- `DeleteUserComment`: look for a live comment with the given id owned by
`userId`; shift every later live comment one slot forward and decrement the
counter (the vacated last live slot is **not** cleared), or report an error
with the state untouched. -/
def deleteUserComment (s : GState) (commentId userId : Int) :
    GState × Option (List Char) :=
  match findOwned s commentId userId with
  | some i =>
      ({ s with
          comments := shiftLoop Comment.zero s.comments i (s.commentCount - 1 - i)
          commentCount := s.commentCount - 1 },
        none)
  | none => (s, some "comment not found or does not belong to user".toList)

/-! ## User repository (`lib/repository/user_repository.go`) -/

/-- `userRepository.Create`: stores the caller's record verbatim at index
`UserCount` and increments `UserCount`; `IdUserIncrement` is not touched.
The array write panics (modelled `none`) when the store is full. -/
def userCreate (s : GState) (u : User) : Option GState :=
  if s.userCount < 255 then
    some { s with users := s.users.set s.userCount u, userCount := s.userCount + 1 }
  else none

/-- `FindUserByUsername`: first live user with an exactly matching username. -/
def findUserByUsername (s : GState) (username : List Char) : Option User :=
  (s.users.take s.userCount).find? fun u => decide (u.username = username)

/-- `IsUserExists`: some live user other than the one at index `exceptId`
has exactly this username. -/
def isUserExists (s : GState) (username : List Char) (exceptId : Int) : Bool :=
  (List.range s.userCount).any fun i =>
    decide ((s.users.getD i User.zero).username = username) && decide ((i : Int) ≠ exceptId)

/-- `GetAllUsers`: `*users = global.Users` — the whole backing array is
copied into the caller's array. -/
def getAllUsers (s : GState) (_out : List User) : List User :=
  s.users

/-- `SearchUsers`: case-insensitive substring scan over live usernames,
writing each match into the caller's array at its original index. -/
def searchUsers (s : GState) (search : List Char) (out : List User) : List User :=
  sparseLoop User.zero
    (fun u => strMatch (strToLower u.username) (strToLower search))
    s.users out 0 s.userCount

/-- `EditUser`: bounds-check the index against the live prefix, then patch
the non-empty fields (Username, Password) of the record in place. -/
def editUser (s : GState) (index : Int) (data : User) : GState × Option (List Char) :=
  if index < 0 ∨ (s.userCount : Int) ≤ index then
    (s, some "index out of bounds".toList)
  else
    let i := index.toNat
    let old := s.users.getD i User.zero
    let patched : User :=
      { old with
        username := if data.username ≠ [] then data.username else old.username
        password := if data.password ≠ [] then data.password else old.password }
    ({ s with users := s.users.set i patched }, none)

/-- `DeleteUser`: bounds-check the index against the live prefix, then shift
all later live users one slot forward, clear the vacated last live slot to
the zero record, and decrement the counter. -/
def deleteUser (s : GState) (id : Int) : GState × Option (List Char) :=
  if id < 0 ∨ (s.userCount : Int) ≤ id then
    (s, some "id out of bounds".toList)
  else
    let i := id.toNat
    ({ s with
        users := (shiftLoop User.zero s.users i (s.userCount - 1 - i)).set
          (s.userCount - 1) User.zero
        userCount := s.userCount - 1 },
      none)

/-! ## Operation traces over the global state -/

/-- The state-mutating repository operations, for reasoning about arbitrary
call sequences. -/
inductive Op where
  | createUser (u : User)
  | editUser (index : Int) (data : User)
  | deleteUser (id : Int)
  | createComment (c : Comment) (userId : Int)
  | editComment (commentId userId : Int) (data : Comment)
  | deleteComment (commentId userId : Int)
deriving DecidableEq, Repr

/-- One repository call; `none` is the unrecoverable array-bounds panic of an
unguarded `Create` on a full store. -/
def step (s : GState) : Op → Option GState
  | .createUser u => userCreate s u
  | .editUser index data => some (editUser s index data).1
  | .deleteUser id => some (deleteUser s id).1
  | .createComment c userId => commentCreate s c userId
  | .editComment commentId userId data => some (editUserComment s commentId userId data).1
  | .deleteComment commentId userId => some (deleteUserComment s commentId userId).1

/-- Run a sequence of repository calls; a panic kills the whole run. -/
def run (s : GState) : List Op → Option GState
  | [] => some s
  | op :: ops =>
      match step s op with
      | some s' => run s' ops
      | none => none

/-- The comment id assigned by this call, if it is a successful `Create`. -/
def assigned (s : GState) : Op → List Int
  | .createComment _ _ => if s.commentCount < 255 then [s.idCommentIncrement + 1] else []
  | _ => []

/-- Run a sequence of repository calls, collecting the comment ids assigned
by the successful `Create` calls in order. -/
def runTrace (s : GState) : List Op → Option (GState × List Int)
  | [] => some (s, [])
  | op :: ops =>
      match step s op with
      | some s' =>
          match runTrace s' ops with
          | some (t, ids) => some (t, assigned s op ++ ids)
          | none => none
      | none => none

/-! ## Spec-side predicates and concrete fixtures -/

/-- What `EditUser` does at a valid index: exactly the non-empty fields of
the patch overwrite the record, the id and every other slot and counter are
untouched. -/
def editUserSpec (s : GState) (index : Int) (udata : User) : Prop :=
  (editUser s index udata).2 = none ∧
  (editUser s index udata).1.users.getD index.toNat User.zero =
    { id := (s.users.getD index.toNat User.zero).id
      username := if udata.username ≠ [] then udata.username
        else (s.users.getD index.toNat User.zero).username
      password := if udata.password ≠ [] then udata.password
        else (s.users.getD index.toNat User.zero).password } ∧
  (∀ j, j ≠ index.toNat →
    (editUser s index udata).1.users.getD j User.zero = s.users.getD j User.zero) ∧
  (editUser s index udata).1.userCount = s.userCount ∧
  (editUser s index udata).1.comments = s.comments ∧
  (editUser s index udata).1.commentCount = s.commentCount ∧
  (editUser s index udata).1.idUserIncrement = s.idUserIncrement ∧
  (editUser s index udata).1.idCommentIncrement = s.idCommentIncrement

/-- What `EditUserComment` does at the found index `i`: exactly the non-empty
fields of the patch overwrite the comment, its id and owner and every other
slot and counter are untouched. -/
def editCommentSpec (s : GState) (cid uid : Int) (cdata : Comment) (i : Nat) : Prop :=
  (editUserComment s cid uid cdata).2 = none ∧
  (editUserComment s cid uid cdata).1.comments.getD i Comment.zero =
    { id := (s.comments.getD i Comment.zero).id
      userId := (s.comments.getD i Comment.zero).userId
      komentar := if cdata.komentar ≠ [] then cdata.komentar
        else (s.comments.getD i Comment.zero).komentar
      kategori := if cdata.kategori ≠ [] then cdata.kategori
        else (s.comments.getD i Comment.zero).kategori } ∧
  (∀ j, j ≠ i →
    (editUserComment s cid uid cdata).1.comments.getD j Comment.zero =
      s.comments.getD j Comment.zero) ∧
  (editUserComment s cid uid cdata).1.commentCount = s.commentCount ∧
  (editUserComment s cid uid cdata).1.users = s.users ∧
  (editUserComment s cid uid cdata).1.userCount = s.userCount ∧
  (editUserComment s cid uid cdata).1.idUserIncrement = s.idUserIncrement ∧
  (editUserComment s cid uid cdata).1.idCommentIncrement = s.idCommentIncrement

/-- What `DeleteUser` does at a valid position: each later live record moves
one slot toward the front, the vacated last live slot is cleared to the zero
record, the live count drops by one and nothing else changes. -/
def deleteUserSpec (s : GState) (id : Int) : Prop :=
  (deleteUser s id).2 = none ∧
  (deleteUser s id).1.userCount = s.userCount - 1 ∧
  (∀ k, k < id.toNat →
    (deleteUser s id).1.users.getD k User.zero = s.users.getD k User.zero) ∧
  (∀ k, id.toNat ≤ k → k + 1 < s.userCount →
    (deleteUser s id).1.users.getD k User.zero = s.users.getD (k + 1) User.zero) ∧
  (deleteUser s id).1.users.getD (s.userCount - 1) User.zero = User.zero ∧
  (∀ k, s.userCount ≤ k →
    (deleteUser s id).1.users.getD k User.zero = s.users.getD k User.zero) ∧
  (deleteUser s id).1.comments = s.comments ∧
  (deleteUser s id).1.commentCount = s.commentCount ∧
  (deleteUser s id).1.idUserIncrement = s.idUserIncrement ∧
  (deleteUser s id).1.idCommentIncrement = s.idCommentIncrement

/-- What `DeleteUserComment` does once the match is found at live index `i`:
each later live record moves one slot toward the front and the live count
drops by one, but every slot from the old position `liveCount - 1` on keeps
its previous content — the vacated last live slot is *not* cleared and
retains a stale copy of the old last live comment. -/
def deleteCommentSpec (s : GState) (cid uid : Int) (i : Nat) : Prop :=
  (deleteUserComment s cid uid).2 = none ∧
  (deleteUserComment s cid uid).1.commentCount = s.commentCount - 1 ∧
  (∀ k, k < i →
    (deleteUserComment s cid uid).1.comments.getD k Comment.zero =
      s.comments.getD k Comment.zero) ∧
  (∀ k, i ≤ k → k + 1 < s.commentCount →
    (deleteUserComment s cid uid).1.comments.getD k Comment.zero =
      s.comments.getD (k + 1) Comment.zero) ∧
  (∀ k, s.commentCount - 1 ≤ k →
    (deleteUserComment s cid uid).1.comments.getD k Comment.zero =
      s.comments.getD k Comment.zero) ∧
  (deleteUserComment s cid uid).1.users = s.users ∧
  (deleteUserComment s cid uid).1.userCount = s.userCount ∧
  (deleteUserComment s cid uid).1.idUserIncrement = s.idUserIncrement ∧
  (deleteUserComment s cid uid).1.idCommentIncrement = s.idCommentIncrement

/-- List-level mirror of `insertLoop`, acting on the reversed sorted prefix:
walk from the right end, passing elements that `shift` and dropping `cur`
just before the first element (from the right) that does not. -/
def insertFRAux (shift : Comment → Bool) (cur : Comment) : List Comment → List Comment
  | [] => [cur]
  | b :: t => if shift b then b :: insertFRAux shift cur t else cur :: b :: t

/-- Insert `cur` into `l` from the right: elements satisfying `shift` move
one slot right and `cur` lands right after the last element that does not. -/
def insertFR (shift : Comment → Bool) (cur : Comment) (l : List Comment) : List Comment :=
  (insertFRAux shift cur l.reverse).reverse

/-- List-level mirror of the outer insertion-sort loop of
`SortCommentsByKategori`. -/
def insSortFold (mode : Int) (acc : List Comment) (l : List Comment) : List Comment :=
  l.foldl (fun a c => insertFR (insShift mode (getCategoryValue c.kategori)) c a) acc

/-- The comments of `l` whose category rank is exactly `v`, in their
original order. -/
def catFilter (v : Int) (l : List Comment) : List Comment :=
  l.filter fun c => decide (getCategoryValue c.kategori = v)

/-- The stable ascending order by category rank: Negatif first, then Netral
(and unknown labels, also rank 0), then Positif — each group keeping the
original relative order. -/
def groupedAsc (l : List Comment) : List Comment :=
  catFilter (-1) l ++ catFilter 0 l ++ catFilter 1 l

/-- The stable descending order by category rank: Positif, then Netral (and
unknown labels), then Negatif — each group keeping the original order. -/
def groupedDesc (l : List Comment) : List Comment :=
  catFilter 1 l ++ catFilter 0 l ++ catFilter (-1) l

/-- Concrete comment literal. -/
def mkComment (i u : Int) (kom kat : String) : Comment := ⟨i, u, kom.toList, kat.toList⟩

/-- Concrete user literal. -/
def mkUser (i : Int) (un pw : String) : User := ⟨i, un.toList, pw.toList⟩

/-- A concrete reachable state: two live users, three live comments (the
third spec example texts for the substring search, mixed owners). -/
def sW : GState :=
  { users := mkUser 1 "alice" "pw" :: mkUser 2 "bob" "pw2" :: List.replicate 253 User.zero
    comments := mkComment 1 7 "very good job" "Netral" ::
      mkComment 2 3 "bad" "Positif" ::
      mkComment 3 7 "so good" "Negatif" :: List.replicate 252 Comment.zero
    userCount := 2
    commentCount := 3
    idUserIncrement := 0
    idCommentIncrement := 3 }

/-- A concrete state with the spec's category example: categories
`[Netral, Positif, Netral, Negatif]` in creation order. -/
def sK : GState :=
  { users := List.replicate 255 User.zero
    comments := mkComment 1 7 "a" "Netral" ::
      mkComment 2 7 "b" "Positif" ::
      mkComment 3 7 "c" "Netral" ::
      mkComment 4 7 "d" "Negatif" :: List.replicate 251 Comment.zero
    userCount := 0
    commentCount := 4
    idUserIncrement := 0
    idCommentIncrement := 4 }

/-- A zero-valued caller array. -/
def outZ : List Comment := List.replicate 255 Comment.zero

/-- A concrete state with the spec's text-length example: comment texts of
lengths `[5, 2, 8, 2]` in creation order. -/
def sL : GState :=
  { users := List.replicate 255 User.zero
    comments := mkComment 1 7 "aaaaa" "Netral" ::
      mkComment 2 7 "bb" "Netral" ::
      mkComment 3 7 "cccccccc" "Netral" ::
      mkComment 4 7 "dd" "Netral" :: List.replicate 251 Comment.zero
    userCount := 0
    commentCount := 4
    idUserIncrement := 0
    idCommentIncrement := 4 }

/-- A concrete call sequence: three comment creations with a deletion in
between. -/
def opsW : List Op :=
  [Op.createComment (mkComment 0 0 "first" "Netral") 7,
   Op.createComment (mkComment 0 0 "second" "Positif") 7,
   Op.deleteComment 1 7,
   Op.createComment (mkComment 0 0 "third" "Negatif") 7]

/-- The state and assigned-id trace that `opsW` produces from the initial
state. -/
def trW : GState × List Int := (runTrace GState.init opsW).getD (GState.init, [])

/-- The state that `opsW` produces from the initial state. -/
def tW : GState := (run GState.init opsW).getD GState.init

/-! ## Basic list lemmas -/

theorem getD_set_self {α} (l : List α) (i : Nat) (a d : α) (h : i < l.length) :
    (l.set i a).getD i d = a := by
  rw [List.getD_eq_getElem?_getD, List.getElem?_set_self h, Option.getD_some]

theorem getD_set_ne {α} (l : List α) {i j : Nat} (h : i ≠ j) (a d : α) :
    (l.set i a).getD j d = l.getD j d := by
  rw [List.getD_eq_getElem?_getD, List.getElem?_set_ne h, ← List.getD_eq_getElem?_getD]

theorem getD_eq_getElem {α} (l : List α) (i : Nat) (d : α) (h : i < l.length) :
    l.getD i d = l[i] := by
  rw [List.getD_eq_getElem?_getD, List.getElem?_eq_getElem h, Option.getD_some]

/-! ## The ownership scan -/

/-- `findOwned` succeeds iff some live comment matches both the id and the
owner — the shared lookup rule of `EditUserComment` and `DeleteUserComment`. -/
theorem findOwned_isSome_iff (s : GState) (cid uid : Int)
    (h : s.commentCount ≤ s.comments.length) :
    (findOwned s cid uid).isSome ↔
      ∃ i, i < s.commentCount ∧ (s.comments.getD i Comment.zero).id = cid ∧
        (s.comments.getD i Comment.zero).userId = uid := by
  constructor
  · intro hs
    match hfo : findOwned s cid uid with
    | none => rw [hfo] at hs; simp at hs
    | some i =>
      unfold findOwned at hfo
      rcases List.findIdx?_eq_some_iff_getElem.mp hfo with ⟨hi, hp, -⟩
      have hi2 := hi
      rw [List.length_take] at hi2
      have hic : i < s.commentCount := lt_of_lt_of_le hi2 (min_le_left _ _)
      have hil : i < s.comments.length := lt_of_lt_of_le hi2 (min_le_right _ _)
      have hidx : (s.comments.take s.commentCount)[i] = s.comments[i] :=
        List.getElem_take _
      rw [hidx] at hp
      simp only [decide_eq_true_eq] at hp
      exact ⟨i, hic, by rw [getD_eq_getElem _ _ _ hil]; exact hp.1,
        by rw [getD_eq_getElem _ _ _ hil]; exact hp.2⟩
  · rintro ⟨i, hic, h1, h2⟩
    have hil : i < s.comments.length := lt_of_lt_of_le hic h
    match hfo : findOwned s cid uid with
    | some j => simp
    | none =>
      unfold findOwned at hfo
      have hall := List.findIdx?_eq_none_iff.mp hfo
      have hmem : s.comments[i] ∈ s.comments.take s.commentCount := by
        have hlt : i < (s.comments.take s.commentCount).length := by
          simp [List.length_take]; omega
        have := List.getElem_mem hlt
        rwa [List.getElem_take] at this
      have := hall _ hmem
      rw [getD_eq_getElem _ _ _ hil] at h1 h2
      simp [h1, h2] at this

/-- When `findOwned` returns an index, it is a live in-bounds index and the
comment there matches both id and owner. -/
theorem findOwned_some_spec (s : GState) (cid uid : Int) (i : Nat)
    (hf : findOwned s cid uid = some i) :
    i < s.commentCount ∧ i < s.comments.length ∧
      (s.comments.getD i Comment.zero).id = cid ∧
      (s.comments.getD i Comment.zero).userId = uid := by
  unfold findOwned at hf
  rcases List.findIdx?_eq_some_iff_getElem.mp hf with ⟨hi, hp, -⟩
  have hi2 := hi
  rw [List.length_take] at hi2
  have hic : i < s.commentCount := lt_of_lt_of_le hi2 (min_le_left _ _)
  have hil : i < s.comments.length := lt_of_lt_of_le hi2 (min_le_right _ _)
  have hidx : (s.comments.take s.commentCount)[i] = s.comments[i] :=
    List.getElem_take _
  rw [hidx] at hp
  simp only [decide_eq_true_eq] at hp
  exact ⟨hic, hil, by rw [getD_eq_getElem _ _ _ hil]; exact hp.1,
    by rw [getD_eq_getElem _ _ _ hil]; exact hp.2⟩

/-! ## C7: ownership-scoped error behaviour -/

/-- **C7**: `EditUserComment` and `DeleteUserComment` fail exactly when no
live comment has both the requested id and the requesting owner (a comment
owned by someone else fails like a missing one), and a failing call leaves
the whole store state unchanged. -/
theorem claim_C7_ownership_errors (s : GState) (cid uid : Int) (data : Comment)
    (h : s.commentCount ≤ s.comments.length) :
    ((editUserComment s cid uid data).2.isSome ↔
        ¬ ∃ i, i < s.commentCount ∧ (s.comments.getD i Comment.zero).id = cid ∧
          (s.comments.getD i Comment.zero).userId = uid) ∧
    ((editUserComment s cid uid data).2.isSome → (editUserComment s cid uid data).1 = s) ∧
    ((deleteUserComment s cid uid).2.isSome ↔
        ¬ ∃ i, i < s.commentCount ∧ (s.comments.getD i Comment.zero).id = cid ∧
          (s.comments.getD i Comment.zero).userId = uid) ∧
    ((deleteUserComment s cid uid).2.isSome → (deleteUserComment s cid uid).1 = s) := by
  have hiff := findOwned_isSome_iff s cid uid h
  match hfo : findOwned s cid uid with
  | some i =>
    have hex : ∃ i, i < s.commentCount ∧ (s.comments.getD i Comment.zero).id = cid ∧
        (s.comments.getD i Comment.zero).userId = uid := hiff.mp (by rw [hfo]; rfl)
    refine ⟨iff_of_false ?_ (not_not_intro hex), ?_,
      iff_of_false ?_ (not_not_intro hex), ?_⟩
    · simp [editUserComment, hfo]
    · intro hs; simp [editUserComment, hfo] at hs
    · simp [deleteUserComment, hfo]
    · intro hs; simp [deleteUserComment, hfo] at hs
  | none =>
    rw [hfo] at hiff
    have hnex : ¬ ∃ i, i < s.commentCount ∧ (s.comments.getD i Comment.zero).id = cid ∧
        (s.comments.getD i Comment.zero).userId = uid := fun hh => by
      simpa using hiff.mpr hh
    refine ⟨iff_of_true ?_ hnex, ?_, iff_of_true ?_ hnex, ?_⟩
    · simp [editUserComment, hfo]
    · intro _; simp [editUserComment, hfo]
    · simp [deleteUserComment, hfo]
    · intro _; simp [deleteUserComment, hfo]

/-! ## C9: partial, frame-preserving edits -/

/-- **C9**: edits are partial and frame-preserving: at a valid target the
non-empty patch fields overwrite the record, empty fields leave it alone,
every other record and counter is unchanged, and a comment's id and owning
user id are never changed by an edit. -/
theorem claim_C9_partial_edits (s : GState)
    (index : Int) (udata : User)
    (h0 : 0 ≤ index) (h1 : index < (s.userCount : Int))
    (hul : s.userCount ≤ s.users.length)
    (cid uid : Int) (cdata : Comment) (i : Nat)
    (hf : findOwned s cid uid = some i) :
    editUserSpec s index udata ∧ editCommentSpec s cid uid cdata i := by
  constructor
  · have hguard : ¬ (index < 0 ∨ (s.userCount : Int) ≤ index) := by omega
    have hk : index.toNat < s.users.length := by omega
    refine ⟨by simp [editUser, hguard], ?_, ?_, ?_, ?_, ?_, ?_, ?_⟩ <;>
      simp only [editUser, hguard, if_neg hguard]
    · exact getD_set_self _ _ _ _ hk
    · intro j hj
      exact getD_set_ne _ (fun hh => hj hh.symm) _ _
    all_goals rfl
  · rcases findOwned_some_spec s cid uid i hf with ⟨-, hil, -, -⟩
    refine ⟨by simp [editUserComment, hf], ?_, ?_, ?_, ?_, ?_, ?_, ?_⟩ <;>
      simp only [editUserComment, hf]
    · exact getD_set_self _ _ _ _ hil
    · intro j hj
      exact getD_set_ne _ (fun hh => hj hh.symm) _ _

/-! ## C10: the user repository never touches the user-id generator -/

/-- **C10**: `userRepository.Create` stores the caller's record verbatim
(including its `Id` field) at index `UserCount` and increments `UserCount`;
no user-repository operation reads or writes `IdUserIncrement`, so user
identity at this layer is purely positional. -/
theorem claim_C10_user_positional_identity (s : GState) (u : User)
    (hlen : s.users.length = 255) (hcap : s.userCount < 255) :
    (∃ s', userCreate s u = some s' ∧
        s'.users.getD s.userCount User.zero = u ∧
        s'.userCount = s.userCount + 1 ∧
        s'.idUserIncrement = s.idUserIncrement ∧
        s'.idCommentIncrement = s.idCommentIncrement ∧
        s'.comments = s.comments ∧ s'.commentCount = s.commentCount) ∧
    (∀ index data, ((editUser s index data).1).idUserIncrement = s.idUserIncrement) ∧
    (∀ id, ((deleteUser s id).1).idUserIncrement = s.idUserIncrement) := by
  refine ⟨⟨{ s with users := s.users.set s.userCount u, userCount := s.userCount + 1 },
      ?_, ?_, rfl, rfl, rfl, rfl, rfl⟩, ?_, ?_⟩
  · simp [userCreate, hcap]
  · exact getD_set_self _ _ _ _ (by omega)
  · intro index data
    simp only [editUser]
    split <;> rfl
  · intro id
    simp only [deleteUser]
    split <;> rfl

/-! ## Trace invariants: capacity (C4) and id monotonicity (C1) -/

theorem shiftLoop_length {α} (z : α) : ∀ (n : Nat) (l : List α) (j : Nat),
    (shiftLoop z l j n).length = l.length := by
  intro n
  induction n with
  | zero => intro l j; rfl
  | succ n ih =>
      intro l j
      show (shiftLoop z (l.set j (l.getD (j + 1) z)) (j + 1) n).length = l.length
      rw [ih, List.length_set]

theorem init_WF : GState.init.WF := by
  refine ⟨?_, ?_, ?_, ?_⟩
  · show (List.replicate 255 User.zero).length = 255
    rw [List.length_replicate]
  · show (List.replicate 255 Comment.zero).length = 255
    rw [List.length_replicate]
  · exact Nat.zero_le _
  · exact Nat.zero_le _

/-- Each repository call either assigns no comment id and does not decrease
the id counter, or is a successful `Create` that assigns exactly
`IdCommentIncrement + 1` and bumps the counter to it. -/
theorem step_assigned {s s' : GState} {op : Op} (h : step s op = some s') :
    (assigned s op = [] ∧ s.idCommentIncrement ≤ s'.idCommentIncrement) ∨
    (assigned s op = [s.idCommentIncrement + 1] ∧
      s'.idCommentIncrement = s.idCommentIncrement + 1) := by
  cases op with
  | createUser u =>
      left
      simp only [step, userCreate] at h
      by_cases hc : s.userCount < 255
      · rw [if_pos hc] at h; cases h; exact ⟨rfl, le_refl _⟩
      · rw [if_neg hc] at h; cases h
  | editUser index data =>
      left
      simp only [step] at h
      cases h
      refine ⟨rfl, ?_⟩
      unfold editUser
      split
      · exact le_refl _
      · exact le_refl _
  | deleteUser id =>
      left
      simp only [step] at h
      cases h
      refine ⟨rfl, ?_⟩
      unfold deleteUser
      split
      · exact le_refl _
      · exact le_refl _
  | createComment c uid =>
      simp only [step, commentCreate] at h
      by_cases hc : s.commentCount < 255
      · right
        rw [if_pos hc] at h
        cases h
        exact ⟨by simp [assigned, hc], rfl⟩
      · rw [if_neg hc] at h; cases h
  | editComment cid uid data =>
      left
      simp only [step] at h
      cases h
      refine ⟨rfl, ?_⟩
      cases hfo : findOwned s cid uid <;> simp [editUserComment, hfo]
  | deleteComment cid uid =>
      left
      simp only [step] at h
      cases h
      refine ⟨rfl, ?_⟩
      cases hfo : findOwned s cid uid <;> simp [deleteUserComment, hfo]

/-- Every repository call preserves well-formedness; in particular a
successful `Create` requires a free slot, so `liveCount ≤ 255` survives. -/
theorem step_WF {s s' : GState} {op : Op} (hWF : s.WF) (h : step s op = some s') :
    s'.WF := by
  obtain ⟨hul, hcl, huc, hcc⟩ := hWF
  cases op with
  | createUser u =>
      simp only [step, userCreate] at h
      by_cases hc : s.userCount < 255
      · rw [if_pos hc] at h
        cases h
        exact ⟨by simp [List.length_set, hul], hcl,
          by show s.userCount + 1 ≤ 255; omega, hcc⟩
      · rw [if_neg hc] at h; cases h
  | editUser index data =>
      simp only [step] at h
      cases h
      unfold editUser
      split
      · exact ⟨hul, hcl, huc, hcc⟩
      · exact ⟨by simp [List.length_set, hul], hcl, huc, hcc⟩
  | deleteUser id =>
      simp only [step] at h
      cases h
      unfold deleteUser
      split
      · exact ⟨hul, hcl, huc, hcc⟩
      · exact ⟨by simp [List.length_set, shiftLoop_length, hul], hcl,
          by show s.userCount - 1 ≤ 255; omega, hcc⟩
  | createComment c uid =>
      simp only [step, commentCreate] at h
      by_cases hc : s.commentCount < 255
      · rw [if_pos hc] at h
        cases h
        exact ⟨hul, by simp [List.length_set, hcl], huc,
          by show s.commentCount + 1 ≤ 255; omega⟩
      · rw [if_neg hc] at h; cases h
  | editComment cid uid data =>
      simp only [step] at h
      cases h
      cases hfo : findOwned s cid uid with
      | none => simp only [editUserComment, hfo]; exact ⟨hul, hcl, huc, hcc⟩
      | some i =>
          simp only [editUserComment, hfo]
          exact ⟨hul, by simp [List.length_set, hcl], huc, hcc⟩
  | deleteComment cid uid =>
      simp only [step] at h
      cases h
      cases hfo : findOwned s cid uid with
      | none => simp only [deleteUserComment, hfo]; exact ⟨hul, hcl, huc, hcc⟩
      | some i =>
          simp only [deleteUserComment, hfo]
          exact ⟨hul, by simp [shiftLoop_length, hcl], huc,
            by show s.commentCount - 1 ≤ 255; omega⟩

theorem run_WF : ∀ (ops : List Op) (s s' : GState), s.WF → run s ops = some s' → s'.WF := by
  intro ops
  induction ops with
  | nil =>
      intro s s' hWF h
      cases h
      exact hWF
  | cons op rest ih =>
      intro s s' hWF h
      unfold run at h
      cases hst : step s op with
      | none => rw [hst] at h; exact Option.noConfusion h
      | some s1 =>
          rw [hst] at h
          exact ih s1 s' (step_WF hWF hst) h

/-- The assigned-ids invariant: every id a trace assigns from state `s` is
strictly above `s`'s id counter, and the assigned ids strictly increase. -/
theorem runTrace_ids : ∀ (ops : List Op) (s t : GState) (ids : List Int),
    runTrace s ops = some (t, ids) →
    (∀ a ∈ ids, s.idCommentIncrement < a) ∧ ids.Pairwise (· < ·) := by
  intro ops
  induction ops with
  | nil =>
      intro s t ids h
      simp only [runTrace, Option.some.injEq, Prod.mk.injEq] at h
      obtain ⟨-, h2⟩ := h
      subst h2
      simp
  | cons op rest ih =>
      intro s t ids h
      unfold runTrace at h
      cases hst : step s op with
      | none => rw [hst] at h; exact Option.noConfusion h
      | some s1 =>
          rw [hst] at h
          have h2 : (match runTrace s1 rest with
              | some (t, ids) => some (t, assigned s op ++ ids)
              | none => none) = some (t, ids) := h
          cases hrt : runTrace s1 rest with
          | none => rw [hrt] at h2; exact Option.noConfusion h2
          | some p =>
              rw [hrt] at h2
              obtain ⟨t1, ids1⟩ := p
              have h' : some (t1, assigned s op ++ ids1) = some (t, ids) := h2
              simp only [Option.some.injEq, Prod.mk.injEq] at h'
              obtain ⟨-, hids⟩ := h'
              subst hids
              obtain ⟨hb, hp⟩ := ih s1 t1 ids1 hrt
              rcases step_assigned hst with ⟨ha, hle⟩ | ⟨ha, heq⟩
              · rw [ha, List.nil_append]
                exact ⟨fun a haa => lt_of_le_of_lt hle (hb a haa), hp⟩
              · rw [ha, List.singleton_append]
                refine ⟨?_, List.pairwise_cons.mpr ⟨?_, hp⟩⟩
                · intro a haa
                  rcases List.mem_cons.mp haa with rfl | haa'
                  · omega
                  · have := hb a haa'; omega
                · intro a haa
                  have := hb a haa; omega

/-- **C1**: comment ids are strictly increasing over the store's lifetime:
along every run from the initial state, the ids assigned by successful
`Create` calls are pairwise strictly increasing — deletions never make a
later `Create` reuse an id, because the id generator is never decremented. -/
theorem claim_C1_comment_ids_strictly_increasing (ops : List Op) (t : GState)
    (ids : List Int) (h : runTrace GState.init ops = some (t, ids)) :
    ids.Pairwise (· < ·) :=
  (runTrace_ids ops GState.init t ids h).2

/-- Witness for C1: three creations with a deletion in between. -/
theorem claim_C1_witness :
    runTrace GState.init opsW = some (trW.1, trW.2) ∧ trW.2.Pairwise (· < ·) :=
  ⟨rfl, claim_C1_comment_ids_strictly_increasing opsW trW.1 trW.2 rfl⟩

/-- **C4**: after every call of every Create/Edit/Delete sequence the live
counts satisfy `0 ≤ liveCount ≤ 255` with the live records in the
contiguous prefix of the 255-slot arrays, and a `Create` on a full store
dies (array-bounds panic, modelled `none`) rather than corrupting state. -/
theorem claim_C4_capacity_invariant :
    (∀ (ops : List Op) (s' : GState), run GState.init ops = some s' → s'.WF) ∧
    (∀ (s : GState) (op : Op) (s' : GState), s.WF → step s op = some s' → s'.WF) ∧
    (∀ (s : GState) (c : Comment) (uid : Int),
      s.commentCount = 255 → commentCreate s c uid = none) ∧
    (∀ (s : GState) (u : User), s.userCount = 255 → userCreate s u = none) := by
  refine ⟨?_, fun s op s' => step_WF, ?_, ?_⟩
  · intro ops s' h
    exact run_WF ops GState.init s' init_WF h
  · intro s c uid hc
    simp [commentCreate, hc]
  · intro s u hc
    simp [userCreate, hc]

/-- Witness for C4: the state after a concrete call sequence is well-formed. -/
theorem claim_C4_witness : run GState.init opsW = some tW ∧ tW.WF :=
  ⟨rfl, claim_C4_capacity_invariant.1 opsW tW rfl⟩

/-- Witness for C7: comment 2 exists in `sW` but belongs to user 3, so user
7's edit and delete fail exactly as a missing comment would, with no state
change. -/
theorem claim_C7_witness :
    sW.commentCount ≤ sW.comments.length ∧
    (((editUserComment sW 2 7 (mkComment 0 0 "z" "")).2.isSome ↔
        ¬ ∃ i, i < sW.commentCount ∧ (sW.comments.getD i Comment.zero).id = 2 ∧
          (sW.comments.getD i Comment.zero).userId = 7) ∧
      ((editUserComment sW 2 7 (mkComment 0 0 "z" "")).2.isSome →
        (editUserComment sW 2 7 (mkComment 0 0 "z" "")).1 = sW) ∧
      ((deleteUserComment sW 2 7).2.isSome ↔
        ¬ ∃ i, i < sW.commentCount ∧ (sW.comments.getD i Comment.zero).id = 2 ∧
          (sW.comments.getD i Comment.zero).userId = 7) ∧
      ((deleteUserComment sW 2 7).2.isSome → (deleteUserComment sW 2 7).1 = sW)) :=
  ⟨by decide, claim_C7_ownership_errors sW 2 7 (mkComment 0 0 "z" "") (by decide)⟩

/-- Witness for C9: editing user 0 with an empty username and password "x",
and comment 1 of owner 7 with a new text and empty category. -/
theorem claim_C9_witness :
    ((0 : Int) ≤ 0 ∧ (0 : Int) < (sW.userCount : Int) ∧
      sW.userCount ≤ sW.users.length ∧ findOwned sW 1 7 = some 0) ∧
    (editUserSpec sW 0 (mkUser 0 "" "x") ∧
      editCommentSpec sW 1 7 (mkComment 0 0 "zzz" "") 0) :=
  ⟨⟨by decide, by decide, by decide, by decide⟩,
    claim_C9_partial_edits sW 0 (mkUser 0 "" "x") (by decide) (by decide) (by decide)
      1 7 (mkComment 0 0 "zzz" "") 0 (by decide)⟩

/-- Witness for C10: creating a user with a caller-chosen id 5 in the
initial state stores it verbatim and leaves the id generator alone. -/
theorem claim_C10_witness :
    (GState.init.users.length = 255 ∧ GState.init.userCount < 255) ∧
    ((∃ s', userCreate GState.init (mkUser 5 "eve" "p") = some s' ∧
        s'.users.getD GState.init.userCount User.zero = mkUser 5 "eve" "p" ∧
        s'.userCount = GState.init.userCount + 1 ∧
        s'.idUserIncrement = GState.init.idUserIncrement ∧
        s'.idCommentIncrement = GState.init.idCommentIncrement ∧
        s'.comments = GState.init.comments ∧
        s'.commentCount = GState.init.commentCount) ∧
      (∀ index data,
        ((editUser GState.init index data).1).idUserIncrement =
          GState.init.idUserIncrement) ∧
      (∀ id,
        ((deleteUser GState.init id).1).idUserIncrement =
          GState.init.idUserIncrement)) :=
  ⟨⟨by decide, by decide⟩,
    claim_C10_user_positional_identity GState.init (mkUser 5 "eve" "p")
      (by decide) (by decide)⟩

/-! ## C2 and C3: delete compaction and the get-all surface -/

/-- Pointwise effect of the shift-compaction loop: positions in the shifted
window take the next slot's old value, everything else is untouched. -/
theorem shiftLoop_getD {α} (z : α) : ∀ (n : Nat) (l : List α) (j k : Nat),
    (shiftLoop z l j n).getD k z =
      if j ≤ k ∧ k < j + n ∧ k < l.length then l.getD (k + 1) z else l.getD k z := by
  intro n
  induction n with
  | zero =>
      intro l j k
      rw [if_neg (by omega)]
      rfl
  | succ n ih =>
      intro l j k
      show (shiftLoop z (l.set j (l.getD (j + 1) z)) (j + 1) n).getD k z = _
      rw [ih, List.length_set]
      by_cases hA : j + 1 ≤ k ∧ k < j + 1 + n ∧ k < l.length
      · rw [if_pos hA, if_pos (by omega)]
        exact getD_set_ne l (by omega) _ z
      · rw [if_neg hA]
        by_cases hk : k = j
        · subst hk
          by_cases hjl : k < l.length
          · rw [getD_set_self l k _ z hjl, if_pos (by omega)]
          · rw [List.set_eq_of_length_le (by omega), if_neg (by omega)]
        · rw [getD_set_ne l (fun hh => hk hh.symm) _ z, if_neg (by omega)]

/-- **C2** (amended): `DeleteUser` at a valid position shifts later live
records forward, clears the vacated last live slot to the zero record and
decrements the count, and rejects out-of-range positions unchanged; once
`DeleteUserComment` finds its match it shifts and decrements the same way,
but does **not** clear the vacated last live slot — that slot keeps a stale
copy of the old last live comment (outside the live prefix). -/
theorem claim_C2_delete_compaction (s : GState) (hWF : s.WF)
    (idBad id cid uid : Int) (i : Nat)
    (hBad : idBad < 0 ∨ (s.userCount : Int) ≤ idBad)
    (h0 : 0 ≤ id) (h1 : id < (s.userCount : Int))
    (hf : findOwned s cid uid = some i) :
    deleteUser s idBad = (s, some "id out of bounds".toList) ∧
    deleteUserSpec s id ∧ deleteCommentSpec s cid uid i := by
  obtain ⟨hul, hcl, huc, hcc⟩ := hWF
  refine ⟨by simp [deleteUser, hBad], ?_, ?_⟩
  · have hguard : ¬ (id < 0 ∨ (s.userCount : Int) ≤ id) := by omega
    have hi : id.toNat < s.userCount := by omega
    have hwin : id.toNat + (s.userCount - 1 - id.toNat) = s.userCount - 1 := by omega
    refine ⟨by simp [deleteUser, hguard], by simp [deleteUser, hguard], ?_, ?_, ?_, ?_,
      by simp [deleteUser, hguard], by simp [deleteUser, hguard],
      by simp [deleteUser, hguard], by simp [deleteUser, hguard]⟩
    · intro k hk
      simp only [deleteUser, if_neg hguard]
      rw [getD_set_ne _ (by omega) _ _, shiftLoop_getD, if_neg (by omega)]
    · intro k hk1 hk2
      simp only [deleteUser, if_neg hguard]
      rw [getD_set_ne _ (by omega) _ _, shiftLoop_getD, if_pos (by omega)]
    · simp only [deleteUser, if_neg hguard]
      rw [getD_set_self _ _ _ _ (by rw [shiftLoop_length]; omega)]
    · intro k hk
      simp only [deleteUser, if_neg hguard]
      rw [getD_set_ne _ (by omega) _ _, shiftLoop_getD, if_neg (by omega)]
  · obtain ⟨hic, hil, -, -⟩ := findOwned_some_spec s cid uid i hf
    refine ⟨by simp [deleteUserComment, hf], by simp [deleteUserComment, hf],
      ?_, ?_, ?_, by simp [deleteUserComment, hf], by simp [deleteUserComment, hf],
      by simp [deleteUserComment, hf], by simp [deleteUserComment, hf]⟩
    · intro k hk
      simp only [deleteUserComment, hf]
      rw [shiftLoop_getD, if_neg (by omega)]
    · intro k hk1 hk2
      simp only [deleteUserComment, hf]
      rw [shiftLoop_getD, if_pos (by omega)]
    · intro k hk
      simp only [deleteUserComment, hf]
      rw [shiftLoop_getD, if_neg (by omega)]

/-- Counterexample to C2 as stated: deleting comment 1 (owner 7) from the
three-comment store `sW` succeeds and compacts, but the vacated last live
slot (index 2) still holds the old comment 3 — it is not cleared to the
zero record as the claim asserts for `DeleteUserComment`. -/
theorem claim_C2_counterexample :
    (deleteUserComment sW 1 7).2 = none ∧
    (deleteUserComment sW 1 7).1.commentCount = 2 ∧
    (deleteUserComment sW 1 7).1.comments.getD 2 Comment.zero =
      mkComment 3 7 "so good" "Negatif" ∧
    (deleteUserComment sW 1 7).1.comments.getD 2 Comment.zero ≠ Comment.zero := by
  refine ⟨by decide, by decide, by decide, by decide⟩

/-- Witness for C2 (amended): concrete delete calls on `sW`. -/
theorem claim_C2_witness :
    (sW.WF ∧ ((5 : Int) < 0 ∨ (sW.userCount : Int) ≤ 5) ∧ (0 : Int) ≤ 1 ∧
      (1 : Int) < (sW.userCount : Int) ∧ findOwned sW 3 7 = some 2) ∧
    (deleteUser sW 5 = (sW, some "id out of bounds".toList) ∧
      deleteUserSpec sW 1 ∧ deleteCommentSpec sW 3 7 2) :=
  ⟨⟨⟨by decide, by decide, by decide, by decide⟩, by decide, by decide, by decide,
      by decide⟩,
    claim_C2_delete_compaction sW
      ⟨by decide, by decide, by decide, by decide⟩ 5 1 3 7 2
      (by decide) (by decide) (by decide) (by decide)⟩

/-- Counterexample to C3 as stated: after `DeleteUserComment` leaves a stale
record beyond the live prefix, `GetAllComments` exposes it — the returned
array holds a non-zero record at index 2 although only 2 records are live. -/
theorem claim_C3_counterexample :
    (getAllComments (deleteUserComment sW 1 7).1
        (List.replicate 255 Comment.zero)).getD 2 Comment.zero ≠ Comment.zero ∧
    (deleteUserComment sW 1 7).1.commentCount = 2 := by
  refine ⟨by decide, by decide⟩

/-- **C3** (amended): the get-all operations copy the entire 255-slot backing
array into the caller's array verbatim: the live records appear in storage
order on the prefix `[0, liveCount)`, and slots at or beyond `liveCount`
contain whatever bytes the backing array holds there (possibly a stale
record after a comment deletion), so callers must bound iteration by the
live count themselves. -/
theorem claim_C3_get_all_exposes_backing (s : GState) (out : List Comment)
    (outU : List User) :
    getAllComments s out = s.comments ∧
    (getAllComments s out).take s.commentCount = liveC s ∧
    getAllUsers s outU = s.users ∧
    (getAllUsers s outU).take s.userCount = liveU s :=
  ⟨rfl, rfl, rfl, rfl⟩

/-! ## C8: sparse positional search -/

theorem getD_replicate {α} (z z' : α) (n k : Nat) (h : k < n) :
    (List.replicate n z).getD k z' = z := by
  rw [getD_eq_getElem _ _ _ (by simpa using h)]
  exact List.getElem_replicate _ (by simpa using h)

/-- Pointwise effect of the sparse scan: inside the scanned window a
matching source record lands at its own index, everything else keeps the
output array's previous content. -/
theorem sparseLoop_getD {α} (z z' : α) (p : α → Bool) (src : List α) :
    ∀ (n : Nat) (out : List α) (i k : Nat), k < out.length →
    (sparseLoop z p src out i n).getD k z' =
      if i ≤ k ∧ k < i + n ∧ p (src.getD k z) = true then src.getD k z
      else out.getD k z' := by
  intro n
  induction n with
  | zero =>
      intro out i k hk
      rw [if_neg (by rintro ⟨h1, h2, -⟩; omega)]
      rfl
  | succ n ih =>
      intro out i k hk
      show (sparseLoop z p src
        (if p (src.getD i z) then out.set i (src.getD i z) else out) (i + 1) n).getD k z' = _
      have hlen : (if p (src.getD i z) then out.set i (src.getD i z) else out).length
          = out.length := by
        split
        · exact List.length_set out i _
        · rfl
      rw [ih _ (i + 1) k (by rw [hlen]; exact hk)]
      by_cases hc : i + 1 ≤ k ∧ k < i + 1 + n ∧ p (src.getD k z) = true
      · rw [if_pos hc, if_pos ⟨by omega, by omega, hc.2.2⟩]
      · rw [if_neg hc]
        by_cases hki : k = i
        · subst hki
          by_cases hp : p (src.getD k z) = true
          · rw [if_pos hp, getD_set_self _ _ _ _ hk, if_pos ⟨le_refl _, by omega, hp⟩]
          · rw [if_neg hp, if_neg (by rintro ⟨-, -, h3⟩; exact hp h3)]
        · have hout : (if p (src.getD i z) then out.set i (src.getD i z) else out).getD k z'
              = out.getD k z' := by
            split
            · exact getD_set_ne _ (fun hh => hki hh.symm) _ _
            · rfl
          rw [hout, if_neg (by rintro ⟨h1, h2, h3⟩; exact hc ⟨by omega, by omega, h3⟩)]

/-- The innermost character scan recognises exactly the prefixes. -/
theorem matchAt_iff : ∀ (t p : List Char), matchAt t p = true ↔ p <+: t := by
  intro t p
  induction p generalizing t with
  | nil =>
      cases t with
      | nil => simp [matchAt]
      | cons c cs => simp [matchAt]
  | cons p ps ih =>
      cases t with
      | nil =>
          constructor
          · intro h; exact absurd h (by simp [matchAt])
          · intro h; exact absurd (List.prefix_nil.mp h) (by simp)
      | cons c cs =>
          rw [List.cons_prefix_cons]
          show (if c = p then matchAt cs ps else false) = true ↔ _
          by_cases hc : c = p
          · rw [if_pos hc, ih]
            subst hc
            simp
          · rw [if_neg hc]
            have : ¬ p = c := fun hh => hc hh.symm
            simp [this]

/-- The manual `j`/`k` scan of the search functions recognises exactly
substring containment. -/
theorem strMatch_iff (text pat : List Char) :
    strMatch text pat = true ↔ pat <:+: text := by
  unfold strMatch
  rw [Bool.and_eq_true, List.any_eq_true]
  constructor
  · rintro ⟨-, j, -, hm⟩
    obtain ⟨r, hr⟩ := (matchAt_iff _ _).mp hm
    refine ⟨text.take j, r, ?_⟩
    rw [List.append_assoc, hr, List.take_append_drop]
  · rintro ⟨s, t, hst⟩
    have hlen : pat.length ≤ text.length := by
      rw [← hst]
      simp only [List.length_append]
      omega
    refine ⟨by simpa using hlen, s.length, ?_, ?_⟩
    · rw [List.mem_range, ← hst]
      simp only [List.length_append]
      omega
    · apply (matchAt_iff _ _).mpr
      rw [← hst, List.append_assoc, List.drop_left]
      exact ⟨t, rfl⟩

/-- **C8**: searches are sparse and positional: called on a zero (absent)
result array, each live record that matches lands at its original index and
every other index stays absent; a record matches iff the lowercased needle
is a contiguous substring of its lowercased text (`SearchComments`,
`SearchUsers`) or its owner id equals the requested one
(`GetCommentByUserId`); the empty needle matches every live record. -/
theorem claim_C8_sparse_positional_search (s : GState) (q : List Char) (uid : Int)
    (hcc : s.commentCount ≤ 255) :
    (∀ k, k < 255 →
      (searchComments s q (List.replicate 255 Comment.zero)).getD k Comment.zero =
        if k < s.commentCount ∧
            strToLower q <:+: strToLower (s.comments.getD k Comment.zero).komentar
        then s.comments.getD k Comment.zero else Comment.zero) ∧
    (∀ k, k < 255 →
      (searchUsers s q (List.replicate 255 User.zero)).getD k User.zero =
        if k < s.userCount ∧
            strToLower q <:+: strToLower (s.users.getD k User.zero).username
        then s.users.getD k User.zero else User.zero) ∧
    (∀ k, k < 255 →
      (getCommentByUserId s uid (List.replicate 255 Comment.zero)).getD k Comment.zero =
        if k < s.commentCount ∧ (s.comments.getD k Comment.zero).userId = uid
        then s.comments.getD k Comment.zero else Comment.zero) ∧
    (∀ k, k < s.commentCount →
      (searchComments s [] (List.replicate 255 Comment.zero)).getD k Comment.zero =
        s.comments.getD k Comment.zero) := by
  have houtC : ∀ k, k < 255 → k < (List.replicate 255 Comment.zero).length := by
    intro k hk; simpa using hk
  have houtU : ∀ k, k < 255 → k < (List.replicate 255 User.zero).length := by
    intro k hk; simpa using hk
  refine ⟨?_, ?_, ?_, ?_⟩
  · intro k hk
    rw [searchComments, sparseLoop_getD _ _ _ _ _ _ _ _ (houtC k hk)]
    by_cases hcond : k < s.commentCount ∧
        strToLower q <:+: strToLower (s.comments.getD k Comment.zero).komentar
    · rw [if_pos ⟨Nat.zero_le _, by omega, (strMatch_iff _ _).mpr hcond.2⟩, if_pos hcond]
    · have hneg : ¬ (0 ≤ k ∧ k < 0 + s.commentCount ∧
          strMatch (strToLower (s.comments.getD k Comment.zero).komentar)
            (strToLower q) = true) := by
        rintro ⟨-, h2, h3⟩
        exact hcond ⟨by omega, (strMatch_iff _ _).mp h3⟩
      rw [if_neg hneg, if_neg hcond]
      exact getD_replicate _ _ _ _ hk
  · intro k hk
    rw [searchUsers, sparseLoop_getD _ _ _ _ _ _ _ _ (houtU k hk)]
    by_cases hcond : k < s.userCount ∧
        strToLower q <:+: strToLower (s.users.getD k User.zero).username
    · rw [if_pos ⟨Nat.zero_le _, by omega, (strMatch_iff _ _).mpr hcond.2⟩, if_pos hcond]
    · have hneg : ¬ (0 ≤ k ∧ k < 0 + s.userCount ∧
          strMatch (strToLower (s.users.getD k User.zero).username)
            (strToLower q) = true) := by
        rintro ⟨-, h2, h3⟩
        exact hcond ⟨by omega, (strMatch_iff _ _).mp h3⟩
      rw [if_neg hneg, if_neg hcond]
      exact getD_replicate _ _ _ _ hk
  · intro k hk
    rw [getCommentByUserId, sparseLoop_getD _ _ _ _ _ _ _ _ (houtC k hk)]
    by_cases hcond : k < s.commentCount ∧ (s.comments.getD k Comment.zero).userId = uid
    · rw [if_pos ⟨Nat.zero_le _, by omega, by simpa using hcond.2⟩, if_pos hcond]
    · have hneg : ¬ (0 ≤ k ∧ k < 0 + s.commentCount ∧
          decide ((s.comments.getD k Comment.zero).userId = uid) = true) := by
        rintro ⟨-, h2, h3⟩
        exact hcond ⟨by omega, by simpa using h3⟩
      rw [if_neg hneg, if_neg hcond]
      exact getD_replicate _ _ _ _ hk
  · intro k hk
    have hinf : strToLower ([] : List Char) <:+:
        strToLower (s.comments.getD k Comment.zero).komentar :=
      ⟨[], strToLower (s.comments.getD k Comment.zero).komentar, by simp [strToLower]⟩
    rw [searchComments, sparseLoop_getD _ _ _ _ _ _ _ _ (houtC k (by omega)),
      if_pos ⟨Nat.zero_le _, by omega, (strMatch_iff _ _).mpr hinf⟩]

/-- Witness for C8: searching "good" over `sW`'s comment texts
`["very good job", "bad", "so good"]` and owner 7 over its comments. -/
theorem claim_C8_witness :
    sW.commentCount ≤ 255 ∧
    ((∀ k, k < 255 →
      (searchComments sW "good".toList (List.replicate 255 Comment.zero)).getD k
          Comment.zero =
        if k < sW.commentCount ∧
            strToLower "good".toList <:+:
              strToLower (sW.comments.getD k Comment.zero).komentar
        then sW.comments.getD k Comment.zero else Comment.zero) ∧
    (∀ k, k < 255 →
      (searchUsers sW "good".toList (List.replicate 255 User.zero)).getD k User.zero =
        if k < sW.userCount ∧
            strToLower "good".toList <:+:
              strToLower (sW.users.getD k User.zero).username
        then sW.users.getD k User.zero else User.zero) ∧
    (∀ k, k < 255 →
      (getCommentByUserId sW 7 (List.replicate 255 Comment.zero)).getD k Comment.zero =
        if k < sW.commentCount ∧ (sW.comments.getD k Comment.zero).userId = 7
        then sW.comments.getD k Comment.zero else Comment.zero) ∧
    (∀ k, k < sW.commentCount →
      (searchComments sW [] (List.replicate 255 Comment.zero)).getD k Comment.zero =
        sW.comments.getD k Comment.zero)) :=
  ⟨by decide, claim_C8_sparse_positional_search sW "good".toList 7 (by decide)⟩

/-! ## C5: the insertion sort by category rank -/

theorem insertFRAux_length (shift : Comment → Bool) (cur : Comment) :
    ∀ l : List Comment, (insertFRAux shift cur l).length = l.length + 1 := by
  intro l
  induction l with
  | nil => rfl
  | cons b t ih =>
      show (if shift b then b :: insertFRAux shift cur t else cur :: b :: t).length = _
      split
      · simp [ih]
      · simp

theorem insertFR_length (shift : Comment → Bool) (cur : Comment) (l : List Comment) :
    (insertFR shift cur l).length = l.length + 1 := by
  unfold insertFR
  rw [List.length_reverse, insertFRAux_length, List.length_reverse]

theorem insertFR_snoc_shift (shift : Comment → Bool) (cur b : Comment)
    (l : List Comment) (hb : shift b = true) :
    insertFR shift cur (l ++ [b]) = insertFR shift cur l ++ [b] := by
  unfold insertFR
  rw [show (l ++ [b]).reverse = b :: l.reverse by simp]
  show (if shift b then b :: insertFRAux shift cur l.reverse
    else cur :: b :: l.reverse).reverse = _
  rw [if_pos hb]
  simp

theorem insertFR_snoc_noshift (shift : Comment → Bool) (cur b : Comment)
    (l : List Comment) (hb : shift b = false) :
    insertFR shift cur (l ++ [b]) = l ++ [b, cur] := by
  unfold insertFR
  rw [show (l ++ [b]).reverse = b :: l.reverse by simp]
  show (if shift b then b :: insertFRAux shift cur l.reverse
    else cur :: b :: l.reverse).reverse = _
  rw [if_neg (by simp [hb])]
  simp

theorem insertFR_noshift (shift : Comment → Bool) (cur : Comment) (X : List Comment)
    (hX : ∀ b ∈ X, shift b = false) : insertFR shift cur X = X ++ [cur] := by
  rcases List.eq_nil_or_concat X with rfl | ⟨L, b, rfl⟩
  · rfl
  · rw [List.concat_eq_append] at hX ⊢
    rw [insertFR_snoc_noshift _ _ _ _ (hX b (by simp))]
    simp

theorem insertFR_grouped (shift : Comment → Bool) (cur : Comment)
    (X Y : List Comment) (hX : ∀ b ∈ X, shift b = false)
    (hY : ∀ b ∈ Y, shift b = true) :
    insertFR shift cur (X ++ Y) = X ++ cur :: Y := by
  revert hY
  induction Y using List.reverseRecOn with
  | nil =>
      intro _
      rw [List.append_nil, insertFR_noshift _ _ _ hX]
  | append_singleton Y b ih =>
      intro hY
      rw [← List.append_assoc,
        insertFR_snoc_shift _ _ _ _ (hY b (List.mem_append_right _ (by simp))),
        ih (fun b' hb' => hY b' (List.mem_append_left _ hb'))]
      simp

theorem getCategoryValue_cases (k : List Char) :
    getCategoryValue k = 1 ∨ getCategoryValue k = 0 ∨ getCategoryValue k = -1 := by
  unfold getCategoryValue
  split
  · exact Or.inl rfl
  · split
    · exact Or.inr (Or.inl rfl)
    · split
      · exact Or.inr (Or.inr rfl)
      · exact Or.inr (Or.inl rfl)

theorem insShift_asc (cv : Int) (b : Comment) :
    insShift 0 cv b = decide (getCategoryValue b.kategori > cv) := by
  unfold insShift
  rw [if_pos rfl]

theorem insShift_desc (cv : Int) (b : Comment) :
    insShift 1 cv b = decide (getCategoryValue b.kategori < cv) := by
  unfold insShift
  rw [if_neg (by norm_num)]

theorem insSortFold_snoc (mode : Int) (acc : List Comment) (l : List Comment)
    (c : Comment) :
    insSortFold mode acc (l ++ [c]) =
      insertFR (insShift mode (getCategoryValue c.kategori)) c
        (insSortFold mode acc l) := by
  unfold insSortFold
  rw [List.foldl_append]
  rfl

theorem insSortFold_length (mode : Int) :
    ∀ (l : List Comment) (acc : List Comment),
    (insSortFold mode acc l).length = acc.length + l.length := by
  intro l
  induction l with
  | nil => intro acc; rfl
  | cons c t ih =>
      intro acc
      show (insSortFold mode (insertFR _ c acc) t).length = _
      rw [ih, insertFR_length]
      simp only [List.length_cons]
      omega

theorem mem_catFilter {v : Int} {l : List Comment} {b : Comment}
    (h : b ∈ catFilter v l) : getCategoryValue b.kategori = v := by
  have := (List.mem_filter.mp h).2
  simpa using this

theorem catFilter_append (v : Int) (l1 l2 : List Comment) :
    catFilter v (l1 ++ l2) = catFilter v l1 ++ catFilter v l2 :=
  List.filter_append _ _

theorem catFilter_singleton (v : Int) (c : Comment) :
    catFilter v [c] = if getCategoryValue c.kategori = v then [c] else [] := by
  unfold catFilter
  by_cases h : getCategoryValue c.kategori = v
  · simp [h]
  · simp [h]

/-- The fold of insert-from-right computes the stable ascending grouping. -/
theorem insSortFold_asc (l : List Comment) : insSortFold 0 [] l = groupedAsc l := by
  induction l using List.reverseRecOn with
  | nil => rfl
  | append_singleton l c ih =>
      rw [insSortFold_snoc, ih]
      rcases getCategoryValue_cases c.kategori with hv | hv | hv
      · have hall : ∀ b ∈ groupedAsc l,
            insShift 0 (getCategoryValue c.kategori) b = false := by
          intro b hb
          rw [insShift_asc, hv]
          rcases List.mem_append.mp hb with hb' | hb'
          · rcases List.mem_append.mp hb' with hb'' | hb''
            · rw [mem_catFilter hb'']; rfl
            · rw [mem_catFilter hb'']; rfl
          · rw [mem_catFilter hb']; rfl
        rw [insertFR_noshift _ _ _ hall]
        simp [groupedAsc, catFilter_append, catFilter_singleton, hv]
      · have hX : ∀ b ∈ catFilter (-1) l ++ catFilter 0 l,
            insShift 0 (getCategoryValue c.kategori) b = false := by
          intro b hb
          rw [insShift_asc, hv]
          rcases List.mem_append.mp hb with hb' | hb'
          · rw [mem_catFilter hb']; rfl
          · rw [mem_catFilter hb']; rfl
        have hY : ∀ b ∈ catFilter 1 l,
            insShift 0 (getCategoryValue c.kategori) b = true := by
          intro b hb
          rw [insShift_asc, hv, mem_catFilter hb]
          rfl
        rw [show groupedAsc l
            = (catFilter (-1) l ++ catFilter 0 l) ++ catFilter 1 l from rfl,
          insertFR_grouped _ _ _ _ hX hY]
        simp [groupedAsc, catFilter_append, catFilter_singleton, hv]
      · have hX : ∀ b ∈ catFilter (-1) l,
            insShift 0 (getCategoryValue c.kategori) b = false := by
          intro b hb
          rw [insShift_asc, hv, mem_catFilter hb]
          rfl
        have hY : ∀ b ∈ catFilter 0 l ++ catFilter 1 l,
            insShift 0 (getCategoryValue c.kategori) b = true := by
          intro b hb
          rw [insShift_asc, hv]
          rcases List.mem_append.mp hb with hb' | hb'
          · rw [mem_catFilter hb']; rfl
          · rw [mem_catFilter hb']; rfl
        rw [show groupedAsc l
            = catFilter (-1) l ++ (catFilter 0 l ++ catFilter 1 l) by
              simp [groupedAsc],
          insertFR_grouped _ _ _ _ hX hY]
        simp [groupedAsc, catFilter_append, catFilter_singleton, hv]

/-- The fold of insert-from-right computes the stable descending grouping. -/
theorem insSortFold_desc (l : List Comment) : insSortFold 1 [] l = groupedDesc l := by
  induction l using List.reverseRecOn with
  | nil => rfl
  | append_singleton l c ih =>
      rw [insSortFold_snoc, ih]
      rcases getCategoryValue_cases c.kategori with hv | hv | hv
      · have hX : ∀ b ∈ catFilter 1 l,
            insShift 1 (getCategoryValue c.kategori) b = false := by
          intro b hb
          rw [insShift_desc, hv, mem_catFilter hb]
          rfl
        have hY : ∀ b ∈ catFilter 0 l ++ catFilter (-1) l,
            insShift 1 (getCategoryValue c.kategori) b = true := by
          intro b hb
          rw [insShift_desc, hv]
          rcases List.mem_append.mp hb with hb' | hb'
          · rw [mem_catFilter hb']; rfl
          · rw [mem_catFilter hb']; rfl
        rw [show groupedDesc l
            = catFilter 1 l ++ (catFilter 0 l ++ catFilter (-1) l) by
              simp [groupedDesc],
          insertFR_grouped _ _ _ _ hX hY]
        simp [groupedDesc, catFilter_append, catFilter_singleton, hv]
      · have hX : ∀ b ∈ catFilter 1 l ++ catFilter 0 l,
            insShift 1 (getCategoryValue c.kategori) b = false := by
          intro b hb
          rw [insShift_desc, hv]
          rcases List.mem_append.mp hb with hb' | hb'
          · rw [mem_catFilter hb']; rfl
          · rw [mem_catFilter hb']; rfl
        have hY : ∀ b ∈ catFilter (-1) l,
            insShift 1 (getCategoryValue c.kategori) b = true := by
          intro b hb
          rw [insShift_desc, hv, mem_catFilter hb]
          rfl
        rw [show groupedDesc l
            = (catFilter 1 l ++ catFilter 0 l) ++ catFilter (-1) l from rfl,
          insertFR_grouped _ _ _ _ hX hY]
        simp [groupedDesc, catFilter_append, catFilter_singleton, hv]
      · have hall : ∀ b ∈ groupedDesc l,
            insShift 1 (getCategoryValue c.kategori) b = false := by
          intro b hb
          rw [insShift_desc, hv]
          rcases List.mem_append.mp hb with hb' | hb'
          · rcases List.mem_append.mp hb' with hb'' | hb''
            · rw [mem_catFilter hb'']; rfl
            · rw [mem_catFilter hb'']; rfl
          · rw [mem_catFilter hb']; rfl
        rw [insertFR_noshift _ _ _ hall]
        simp [groupedDesc, catFilter_append, catFilter_singleton, hv]

theorem set_eq_take_cons_drop {α} (l : List α) :
    ∀ (i : Nat) (a : α), i < l.length →
    l.set i a = l.take i ++ a :: l.drop (i + 1) := by
  induction l with
  | nil => intro i a h; simp at h
  | cons b t ih =>
      intro i a h
      cases i with
      | zero => rfl
      | succ k =>
          show b :: t.set k a = b :: (t.take k ++ a :: t.drop (k + 1))
          rw [ih k a (by simpa using h)]

theorem take_set_of_le {α} (l : List α) (i k : Nat) (a : α) (h : k ≤ i) :
    (l.set i a).take k = l.take k := by
  apply List.ext_getElem?
  intro n
  rw [List.getElem?_take, List.getElem?_take]
  by_cases hn : n < k
  · rw [if_pos hn, if_pos hn, List.getElem?_set_ne (by omega)]
  · rw [if_neg hn, if_neg hn]

theorem getD_append_len {α} (X Y : List α) (z : α) :
    (X ++ Y).getD X.length z = Y.getD 0 z := by
  rw [List.getD_eq_getElem?_getD, List.getElem?_append_right (le_refl _),
    Nat.sub_self, ← List.getD_eq_getElem?_getD]

/-- The inner loop of the insertion sort equals insert-from-right on the
prefix before `i`, leaving everything after `i` untouched. -/
theorem insertLoop_eq (shift : Comment → Bool) (cur : Comment) :
    ∀ (i : Nat) (out : List Comment), i < out.length →
    insertLoop shift cur out i = insertFR shift cur (out.take i) ++ out.drop (i + 1) := by
  intro i
  induction i with
  | zero =>
      intro out h0
      cases out with
      | nil => simp at h0
      | cons a t => rfl
  | succ k ih =>
      intro out h
      have hk : k < out.length := by omega
      show (if shift (out.getD k Comment.zero) then
          insertLoop shift cur (out.set (k + 1) (out.getD k Comment.zero)) k
        else out.set (k + 1) cur) = _
      rw [getD_eq_getElem _ _ _ hk]
      by_cases hs : shift out[k] = true
      · rw [if_pos hs, ih _ (by rw [List.length_set]; omega),
          take_set_of_le _ _ _ _ (by omega)]
        have hdrop : (out.set (k + 1) out[k]).drop (k + 1)
            = out[k] :: out.drop (k + 2) := by
          rw [List.drop_set, if_neg (by omega), List.drop_eq_getElem_cons h,
            Nat.sub_self]
          rfl
        rw [hdrop, List.take_succ, List.getElem?_eq_getElem hk]
        show _ = insertFR shift cur (out.take k ++ [out[k]]) ++ out.drop (k + 2)
        rw [insertFR_snoc_shift _ _ _ _ hs]
        simp
      · rw [if_neg hs, set_eq_take_cons_drop _ _ _ h]
        have ht : out.take (k + 1) = out.take k ++ [out[k]] := by
          rw [List.take_succ, List.getElem?_eq_getElem hk]
          rfl
        rw [ht, insertFR_snoc_noshift _ _ _ _ (by simpa using hs),
          List.append_assoc, List.append_assoc]
        rfl

/-- The outer loop of the insertion sort equals the list-level fold, slot by
slot: starting from a sorted prefix `sorted` and the still-unsorted live
segment `rest`, the caller's tail after the live prefix is untouched. -/
theorem insSortLoop_eq (count : Nat) (mode : Int) :
    ∀ (rest sorted tail : List Comment),
    insSortLoop count mode (sorted ++ rest ++ tail) sorted.length rest.length =
      insSortFold mode sorted rest ++ tail := by
  intro rest
  induction rest with
  | nil =>
      intro sorted tail
      show sorted ++ [] ++ tail = insSortFold mode sorted [] ++ tail
      simp [insSortFold]
  | cons c rest' ih =>
      intro sorted tail
      have harr : sorted ++ (c :: rest') ++ tail
          = sorted ++ ((c :: rest') ++ tail) := by simp
      have hget : (sorted ++ (c :: rest') ++ tail).getD sorted.length Comment.zero
          = c := by
        rw [harr, getD_append_len]
        rfl
      have hlen : sorted.length < (sorted ++ (c :: rest') ++ tail).length := by
        simp
      show insSortLoop count mode
          (insertLoop
            (insShift mode (getCategoryValue
              ((sorted ++ (c :: rest') ++ tail).getD sorted.length Comment.zero).kategori))
            ((sorted ++ (c :: rest') ++ tail).getD sorted.length Comment.zero)
            (sorted ++ (c :: rest') ++ tail) sorted.length)
          (sorted.length + 1) rest'.length = _
      rw [hget, insertLoop_eq _ _ _ _ hlen]
      have htake : (sorted ++ (c :: rest') ++ tail).take sorted.length = sorted := by
        rw [harr]
        exact List.take_left _ _
      have hdrop : (sorted ++ (c :: rest') ++ tail).drop (sorted.length + 1)
          = rest' ++ tail := by
        rw [show sorted ++ (c :: rest') ++ tail
            = (sorted ++ [c]) ++ (rest' ++ tail) by simp]
        exact List.drop_left' (by simp)
      rw [htake, hdrop]
      have hfold : insSortFold mode sorted (c :: rest')
          = insSortFold mode
              (insertFR (insShift mode (getCategoryValue c.kategori)) c sorted)
              rest' := rfl
      rw [hfold]
      have := ih (insertFR (insShift mode (getCategoryValue c.kategori)) c sorted) tail
      rw [insertFR_length] at this
      rw [← this, ← List.append_assoc]

/-- The copy loop writes the scanned window of `src` over `out` and leaves
the rest of `out` alone. -/
theorem copyLoop_eq {α} (z : α) :
    ∀ (n : Nat) (src out : List α) (i : Nat),
    i + n ≤ src.length → i + n ≤ out.length →
    copyLoop z src out i n = out.take i ++ (src.drop i).take n ++ out.drop (i + n) := by
  intro n
  induction n with
  | zero =>
      intro src out i h1 h2
      show out = out.take i ++ (src.drop i).take 0 ++ out.drop (i + 0)
      simp [List.take_append_drop]
  | succ n ih =>
      intro src out i h1 h2
      have hi_src : i < src.length := by omega
      have hi_out : i < out.length := by omega
      show copyLoop z src (out.set i (src.getD i z)) (i + 1) n = _
      rw [ih _ _ _ (by omega) (by rw [List.length_set]; omega),
        getD_eq_getElem _ _ _ hi_src]
      have h_take : (out.set i src[i]).take (i + 1) = out.take i ++ [src[i]] := by
        rw [List.take_succ, take_set_of_le _ _ _ _ (le_refl i),
          List.getElem?_set_self hi_out]
        rfl
      have h_drop : (out.set i src[i]).drop (i + 1 + n) = out.drop (i + 1 + n) := by
        rw [List.drop_set, if_pos (by omega)]
      have h_src : (src.drop i).take (n + 1) = src[i] :: (src.drop (i + 1)).take n := by
        rw [List.drop_eq_getElem_cons hi_src]
        rfl
      rw [h_take, h_drop, h_src, show i + 1 + n = i + (n + 1) from by omega]
      simp

/-- `SortCommentsByKategori` equals the list-level fold over the live
prefix, with the caller's array content beyond the live prefix untouched. -/
theorem sortKategori_eq (s : GState) (out : List Comment) (mode : Int)
    (hcl : s.comments.length = 255) (hcc : s.commentCount ≤ 255)
    (hol : out.length = 255) :
    sortCommentsByKategori s out mode
      = insSortFold mode [] (liveC s) ++ out.drop s.commentCount := by
  have hlc : (liveC s).length = s.commentCount := by
    simp only [liveC, List.length_take]
    exact min_eq_left (by omega)
  have hcopy : copyLoop Comment.zero s.comments out 0 s.commentCount
      = liveC s ++ out.drop s.commentCount := by
    rw [copyLoop_eq _ _ _ _ _ (by omega) (by omega)]
    simp [liveC]
  unfold sortCommentsByKategori
  rw [hcopy]
  rcases Nat.eq_zero_or_pos s.commentCount with hc0 | hcpos
  · have hl : liveC s = [] := by
      rw [← List.length_eq_zero]
      omega
    rw [hl]
    simp [hc0, insSortLoop, insSortFold]
  · cases hll : liveC s with
    | nil => rw [hll] at hlc; simp at hlc; omega
    | cons c0 live' =>
        have hlen' : live'.length = s.commentCount - 1 := by
          rw [hll] at hlc
          simp at hlc
          omega
        have harr : (c0 :: live') ++ out.drop s.commentCount
            = ([c0] ++ live') ++ out.drop s.commentCount := rfl
        rw [harr, show s.commentCount - 1 = live'.length from hlen'.symm]
        have := insSortLoop_eq s.commentCount mode live' [c0] (out.drop s.commentCount)
        rw [show ([c0] : List Comment).length = 1 from rfl] at this
        rw [this]
        rfl

/-- **C5**: `SortCommentsByKategori` sorts the live comments stably by
category rank (Positif = 1, Netral = 0, Negatif = -1, unknown labels = 0):
mode 0 yields Negatif → Netral → Positif, mode 1 Positif → Netral → Negatif,
and comments of equal rank keep their original creation order — the
grouped-filter form states order, permutation and stability at once. -/
theorem claim_C5_category_sort_stable (s : GState) (out : List Comment)
    (hcl : s.comments.length = 255) (hcc : s.commentCount ≤ 255)
    (hol : out.length = 255) :
    (sortCommentsByKategori s out 0).take s.commentCount = groupedAsc (liveC s) ∧
    (sortCommentsByKategori s out 1).take s.commentCount = groupedDesc (liveC s) := by
  have hlc : (liveC s).length = s.commentCount := by
    simp only [liveC, List.length_take]
    exact min_eq_left (by omega)
  constructor
  · rw [sortKategori_eq s out 0 hcl hcc hol, insSortFold_asc]
    exact List.take_left' (by rw [← insSortFold_asc, insSortFold_length]; simp [hlc])
  · rw [sortKategori_eq s out 1 hcl hcc hol, insSortFold_desc]
    exact List.take_left' (by rw [← insSortFold_desc, insSortFold_length]; simp [hlc])

/-- Witness for C5: the spec's category example
`[Netral, Positif, Netral, Negatif]` in creation order. -/
theorem claim_C5_witness :
    (sK.comments.length = 255 ∧ sK.commentCount ≤ 255 ∧ outZ.length = 255) ∧
    ((sortCommentsByKategori sK outZ 0).take sK.commentCount = groupedAsc (liveC sK) ∧
      (sortCommentsByKategori sK outZ 1).take sK.commentCount = groupedDesc (liveC sK)) :=
  ⟨⟨by decide, by decide, by decide⟩,
    claim_C5_category_sort_stable sK outZ (by decide) (by decide) (by decide)⟩

/-! ## C6: the selection sort by text length -/

theorem getD_cons_set_perm {α} (z : α) :
    ∀ (t : List α) (k : Nat) (x : α), k < t.length →
    List.Perm (t.getD k z :: t.set k x) (x :: t) := by
  intro t
  induction t with
  | nil => intro k x h; simp at h
  | cons a t' ih =>
      intro k x h
      cases k with
      | zero =>
          show List.Perm (a :: x :: t') (x :: a :: t')
          exact List.Perm.swap x a t'
      | succ m =>
          show List.Perm (t'.getD m z :: a :: t'.set m x) (x :: a :: t')
          exact ((List.Perm.swap a (t'.getD m z) (t'.set m x)).trans
            ((ih m x (by simpa using h)).cons a)).trans (List.Perm.swap x a t')

theorem set_set_perm {α} (z : α) :
    ∀ (l : List α) (i j : Nat), i < j → j < l.length →
    List.Perm ((l.set i (l.getD j z)).set j (l.getD i z)) l := by
  intro l
  induction l with
  | nil => intro i j hij hj; simp at hj
  | cons a t ih =>
      intro i j hij hj
      cases i with
      | zero =>
          cases j with
          | zero => omega
          | succ m =>
              show List.Perm (t.getD m z :: t.set m a) (a :: t)
              exact getD_cons_set_perm z t m a (by simpa using hj)
      | succ mi =>
          cases j with
          | zero => omega
          | succ mj =>
              show List.Perm (a :: (t.set mi (t.getD mj z)).set mj (t.getD mi z)) (a :: t)
              exact (ih mi mj (by omega) (by simpa using hj)).cons a

theorem set_set_perm' {α} (z : α) (l : List α) (i j : Nat) (hne : i ≠ j)
    (hi : i < l.length) (hj : j < l.length) :
    List.Perm ((l.set i (l.getD j z)).set j (l.getD i z)) l := by
  rcases Nat.lt_or_ge i j with h | h
  · exact set_set_perm z l i j h hj
  · have hji : j < i := by omega
    rw [List.set_comm _ _ _ hne]
    exact set_set_perm z l j i hji hi

theorem take_set {α} : ∀ (l : List α) (i n : Nat) (a : α),
    (l.set i a).take n = (l.take n).set i a := by
  intro l
  induction l with
  | nil => intro i n a; simp
  | cons a' t ih =>
      intro i n a
      cases i with
      | zero =>
          cases n with
          | zero => rfl
          | succ m => rfl
      | succ k =>
          cases n with
          | zero => rfl
          | succ m =>
              show a' :: (t.set k a).take m = a' :: (t.take m).set k a
              rw [ih]

theorem getD_take {α} (l : List α) (n k : Nat) (z : α) (h : k < n) :
    (l.take n).getD k z = l.getD k z := by
  rw [List.getD_eq_getElem?_getD, List.getElem?_take, if_pos h,
    ← List.getD_eq_getElem?_getD]

theorem selSwap_length (out : List Comment) (i idx : Nat) :
    (selSwap out i idx).length = out.length := by
  unfold selSwap
  split
  · simp [List.length_set]
  · rfl

theorem selSwap_getD (out : List Comment) (i idx k : Nat)
    (hi : i < out.length) (hidx : idx < out.length) :
    (selSwap out i idx).getD k Comment.zero =
      if k = i then out.getD idx Comment.zero
      else if k = idx then out.getD i Comment.zero
      else out.getD k Comment.zero := by
  unfold selSwap
  by_cases hne : idx ≠ i
  · rw [if_pos hne]
    by_cases hki : k = i
    · rw [if_pos hki, getD_set_ne _ (fun hh => hne (by omega)) _ _, hki,
        getD_set_self _ _ _ _ hi]
    · rw [if_neg hki]
      by_cases hkidx : k = idx
      · rw [if_pos hkidx, hkidx,
          getD_set_self _ _ _ _ (by rw [List.length_set]; exact hidx)]
      · rw [if_neg hkidx, getD_set_ne _ (fun hh => hkidx hh.symm) _ _,
          getD_set_ne _ (fun hh => hki hh.symm) _ _]
  · rw [if_neg hne]
    have hidxi : idx = i := by omega
    by_cases hki : k = i
    · rw [if_pos hki, hki, hidxi]
    · rw [if_neg hki]
      by_cases hkidx : k = idx
      · rw [if_pos hkidx, hkidx, hidxi]
      · rw [if_neg hkidx]

theorem selSwap_take_of_le (out : List Comment) (i idx m : Nat)
    (h1 : m ≤ i) (h2 : m ≤ idx) :
    (selSwap out i idx).take m = out.take m := by
  unfold selSwap
  split
  · rw [take_set, take_set, List.set_eq_of_length_le
      (by rw [List.length_set, List.length_take]; omega),
      List.set_eq_of_length_le (by rw [List.length_take]; omega)]
  · rfl

theorem selSwap_take_perm (out : List Comment) (i idx count : Nat)
    (hi : i < count) (hidx : idx < count) (hc : count ≤ out.length) :
    List.Perm ((selSwap out i idx).take count) (out.take count) := by
  unfold selSwap
  by_cases hne : idx ≠ i
  · rw [if_pos hne, take_set, take_set]
    rw [show out.getD idx Comment.zero = (out.take count).getD idx Comment.zero from
        (getD_take out count idx _ hidx).symm,
      show out.getD i Comment.zero = (out.take count).getD i Comment.zero from
        (getD_take out count i _ hi).symm]
    exact set_set_perm' _ (out.take count) i idx (fun hh => hne hh.symm)
      (by rw [List.length_take]; omega) (by rw [List.length_take]; omega)
  · rw [if_neg hne]

theorem take_succ_getD {α} (l : List α) (i : Nat) (z : α) (h : i < l.length) :
    l.take (i + 1) = l.take i ++ [l.getD i z] := by
  rw [List.take_succ, List.getElem?_eq_getElem h, getD_eq_getElem _ _ _ h]
  rfl

theorem liveC_length (s : GState) (h : s.commentCount ≤ s.comments.length) :
    (liveC s).length = s.commentCount := by
  simp only [liveC, List.length_take]
  exact min_eq_left h

/-- The copy loop writes exactly the live prefix over the head of the
caller's array. -/
theorem copyLive_eq (s : GState) (out : List Comment)
    (hcl : s.comments.length = 255) (hcc : s.commentCount ≤ 255)
    (hol : out.length = 255) :
    copyLoop Comment.zero s.comments out 0 s.commentCount
      = liveC s ++ out.drop s.commentCount := by
  rw [copyLoop_eq _ _ _ _ _ (by omega) (by omega)]
  simp [liveC]

/-- Mode 0 of the selection scan picks a text no longer than either
candidate, and picks one of the two indices. -/
theorem selPick0_spec (out : List Comment) (idx j : Nat) :
    (out.getD (selPick out 0 idx j) Comment.zero).komentar.length
      ≤ (out.getD idx Comment.zero).komentar.length ∧
    (out.getD (selPick out 0 idx j) Comment.zero).komentar.length
      ≤ (out.getD j Comment.zero).komentar.length ∧
    (selPick out 0 idx j = idx ∨ selPick out 0 idx j = j) := by
  unfold selPick
  rw [if_pos rfl]
  by_cases h : (out.getD j Comment.zero).komentar.length
      < (out.getD idx Comment.zero).komentar.length
  · rw [if_pos h]
    exact ⟨le_of_lt h, le_refl _, Or.inr rfl⟩
  · rw [if_neg h]
    exact ⟨le_refl _, by omega, Or.inl rfl⟩

/-- Mode 1 of the selection scan picks a text no shorter than either
candidate, and picks one of the two indices. -/
theorem selPick1_spec (out : List Comment) (idx j : Nat) :
    (out.getD idx Comment.zero).komentar.length
      ≤ (out.getD (selPick out 1 idx j) Comment.zero).komentar.length ∧
    (out.getD j Comment.zero).komentar.length
      ≤ (out.getD (selPick out 1 idx j) Comment.zero).komentar.length ∧
    (selPick out 1 idx j = idx ∨ selPick out 1 idx j = j) := by
  unfold selPick
  rw [if_neg (by norm_num), if_pos rfl]
  by_cases h : (out.getD j Comment.zero).komentar.length
      > (out.getD idx Comment.zero).komentar.length
  · rw [if_pos h]
    exact ⟨le_of_lt h, le_refl _, Or.inr rfl⟩
  · rw [if_neg h]
    exact ⟨le_refl _, by omega, Or.inl rfl⟩

/-- The inner selection scan returns an index of the window (or the running
one) whose record is `le`-minimal over the whole scanned window. -/
theorem selFind_spec (out : List Comment) (mode : Int) (le : Comment → Comment → Prop)
    (hrefl : ∀ a, le a a)
    (htrans : ∀ a b c, le a b → le b c → le a c)
    (hpick : ∀ idx j : Nat,
      le (out.getD (selPick out mode idx j) Comment.zero) (out.getD idx Comment.zero) ∧
      le (out.getD (selPick out mode idx j) Comment.zero) (out.getD j Comment.zero) ∧
      (selPick out mode idx j = idx ∨ selPick out mode idx j = j)) :
    ∀ (n idx j : Nat),
      le (out.getD (selFind out mode idx j n) Comment.zero) (out.getD idx Comment.zero) ∧
      (∀ k, j ≤ k → k < j + n →
        le (out.getD (selFind out mode idx j n) Comment.zero)
          (out.getD k Comment.zero)) ∧
      (selFind out mode idx j n = idx ∨
        (j ≤ selFind out mode idx j n ∧ selFind out mode idx j n < j + n)) := by
  intro n
  induction n with
  | zero =>
      intro idx j
      exact ⟨hrefl _, fun k h1 h2 => absurd h2 (by omega), Or.inl rfl⟩
  | succ n ih =>
      intro idx j
      have heq : selFind out mode idx j (n + 1)
          = selFind out mode (selPick out mode idx j) (j + 1) n := rfl
      rw [heq]
      obtain ⟨h1, h2, h3⟩ := ih (selPick out mode idx j) (j + 1)
      obtain ⟨hp1, hp2, hp3⟩ := hpick idx j
      refine ⟨htrans _ _ _ h1 hp1, ?_, ?_⟩
      · intro k hk1 hk2
        by_cases hkj : k = j
        · rw [hkj]
          exact htrans _ _ _ h1 hp2
        · exact h2 k (by omega) (by omega)
      · rcases h3 with heq2 | hwin
        · rw [heq2]
          rcases hp3 with hp | hp
          · exact Or.inl hp
          · exact Or.inr (by rw [hp]; omega)
        · exact Or.inr (by omega)

/-- The outer selection-sort loop: starting with a sorted prefix below the
unscanned window, it permutes the first `count` slots and sorts them. -/
theorem selSortLoop_spec (count : Nat) (mode : Int) (le : Comment → Comment → Prop)
    (hrefl : ∀ a, le a a)
    (htrans : ∀ a b c, le a b → le b c → le a c)
    (hpick : ∀ (out : List Comment) (idx j : Nat),
      le (out.getD (selPick out mode idx j) Comment.zero) (out.getD idx Comment.zero) ∧
      le (out.getD (selPick out mode idx j) Comment.zero) (out.getD j Comment.zero) ∧
      (selPick out mode idx j = idx ∨ selPick out mode idx j = j)) :
    ∀ (n i : Nat) (out : List Comment),
    count ≤ out.length → i + n + 1 = count →
    List.Pairwise le (out.take i) →
    (∀ a ∈ out.take i, ∀ k, i ≤ k → k < count → le a (out.getD k Comment.zero)) →
    List.Perm ((selSortLoop count mode out i n).take count) (out.take count) ∧
    List.Pairwise le ((selSortLoop count mode out i n).take count) := by
  intro n
  induction n with
  | zero =>
      intro i out hlen hcount hsorted hbound
      refine ⟨List.Perm.refl _, ?_⟩
      have hil : i < out.length := by omega
      have htc : out.take count = out.take i ++ [out.getD i Comment.zero] := by
        rw [show count = i + 1 from by omega]
        exact take_succ_getD out i Comment.zero hil
      show List.Pairwise le (out.take count)
      rw [htc, List.pairwise_append]
      refine ⟨hsorted, List.pairwise_singleton _ _, ?_⟩
      intro a ha b hb
      have hb' : b = out.getD i Comment.zero := by simpa using hb
      rw [hb']
      exact hbound a ha i (le_refl _) (by omega)
  | succ n ih =>
      intro i out hlen hcount hsorted hbound
      have hstep : selSortLoop count mode out i (n + 1)
          = selSortLoop count mode
              (selSwap out i (selFind out mode i (i + 1) (count - (i + 1))))
              (i + 1) n := rfl
      rw [hstep]
      obtain ⟨hf1, hf2, hf3⟩ := selFind_spec out mode le hrefl htrans (hpick out)
        (count - (i + 1)) i (i + 1)
      generalize hgen : selFind out mode i (i + 1) (count - (i + 1)) = idx
        at hf1 hf2 hf3 ⊢
      have hi_count : i < count := by omega
      have hidx_count : idx < count := by
        rcases hf3 with h | h <;> omega
      have hidx_ge : i ≤ idx := by
        rcases hf3 with h | h <;> omega
      have hil : i < out.length := by omega
      have hidxl : idx < out.length := by omega
      have hmin : ∀ k, i ≤ k → k < count →
          le (out.getD idx Comment.zero) (out.getD k Comment.zero) := by
        intro k hk1 hk2
        by_cases hki : k = i
        · rw [hki]; exact hf1
        · exact hf2 k (by omega) (by omega)
      have hlen' : count ≤ (selSwap out i idx).length := by
        rw [selSwap_length]; exact hlen
      have hil' : i < (selSwap out i idx).length := by
        rw [selSwap_length]; omega
      have hgetD_i : (selSwap out i idx).getD i Comment.zero
          = out.getD idx Comment.zero := by
        rw [selSwap_getD out i idx i hil hidxl, if_pos rfl]
      have htake' : (selSwap out i idx).take i = out.take i :=
        selSwap_take_of_le out i idx i (le_refl _) hidx_ge
      have htake_succ : (selSwap out i idx).take (i + 1)
          = out.take i ++ [out.getD idx Comment.zero] := by
        rw [take_succ_getD _ i Comment.zero hil', htake', hgetD_i]
      have hsorted' : List.Pairwise le ((selSwap out i idx).take (i + 1)) := by
        rw [htake_succ, List.pairwise_append]
        refine ⟨hsorted, List.pairwise_singleton _ _, ?_⟩
        intro a ha b hb
        have hb' : b = out.getD idx Comment.zero := by simpa using hb
        rw [hb']
        exact hbound a ha idx hidx_ge hidx_count
      have hbound' : ∀ a ∈ (selSwap out i idx).take (i + 1), ∀ k, i + 1 ≤ k →
          k < count → le a ((selSwap out i idx).getD k Comment.zero) := by
        intro a ha k hk1 hk2
        have hka : (selSwap out i idx).getD k Comment.zero
            = if k = idx then out.getD i Comment.zero
              else out.getD k Comment.zero := by
          rw [selSwap_getD out i idx k hil hidxl, if_neg (by omega)]
        rw [htake_succ] at ha
        rcases List.mem_append.mp ha with ha' | ha'
        · rw [hka]
          by_cases hkidx : k = idx
          · rw [if_pos hkidx]
            exact hbound a ha' i (le_refl _) hi_count
          · rw [if_neg hkidx]
            exact hbound a ha' k (by omega) hk2
        · have ha'' : a = out.getD idx Comment.zero := by simpa using ha'
          rw [ha'', hka]
          by_cases hkidx : k = idx
          · rw [if_pos hkidx]
            exact hmin i (le_refl _) hi_count
          · rw [if_neg hkidx]
            exact hmin k (by omega) hk2
      have hperm : List.Perm ((selSwap out i idx).take count) (out.take count) :=
        selSwap_take_perm out i idx count hi_count hidx_count hlen
      obtain ⟨ihp, ihs⟩ := ih (i + 1) (selSwap out i idx) hlen' (by omega)
        hsorted' hbound'
      exact ⟨ihp.trans hperm, ihs⟩

/-- **C6**: `SortCommentsByComment` returns a permutation of the live
comments ordered by text length: mode 0 nondecreasing (shortest first),
mode 1 nonincreasing (longest first); no tie order is asserted (the
selection sort is unstable). -/
theorem claim_C6_length_sort (s : GState) (out : List Comment)
    (hcl : s.comments.length = 255) (hcc : s.commentCount ≤ 255)
    (hol : out.length = 255) :
    (List.Perm ((sortCommentsByComment s out 0).take s.commentCount) (liveC s) ∧
      List.Pairwise (fun a b => a.komentar.length ≤ b.komentar.length)
        ((sortCommentsByComment s out 0).take s.commentCount)) ∧
    (List.Perm ((sortCommentsByComment s out 1).take s.commentCount) (liveC s) ∧
      List.Pairwise (fun a b => b.komentar.length ≤ a.komentar.length)
        ((sortCommentsByComment s out 1).take s.commentCount)) := by
  have harr_len : (liveC s ++ out.drop s.commentCount).length = 255 := by
    rw [List.length_append, liveC_length s (by omega), List.length_drop]
    omega
  have harr_take : (liveC s ++ out.drop s.commentCount).take s.commentCount
      = liveC s := List.take_left' (liveC_length s (by omega))
  unfold sortCommentsByComment
  rw [copyLive_eq s out hcl hcc hol]
  rcases Nat.eq_zero_or_pos s.commentCount with hc0 | hcpos
  · rw [hc0]
    refine ⟨⟨?_, ?_⟩, ⟨?_, ?_⟩⟩ <;> simp [selSortLoop, liveC, hc0]
  · obtain ⟨hp0, hs0⟩ := selSortLoop_spec s.commentCount 0
      (fun a b => a.komentar.length ≤ b.komentar.length)
      (fun a => le_refl _) (fun a b c h1 h2 => le_trans h1 h2)
      (fun o idx j => selPick0_spec o idx j)
      (s.commentCount - 1) 0 (liveC s ++ out.drop s.commentCount)
      (by rw [harr_len]; omega) (by omega) (by simp)
      (by intro a ha; rw [List.take_zero] at ha; simp at ha)
    obtain ⟨hp1, hs1⟩ := selSortLoop_spec s.commentCount 1
      (fun a b => b.komentar.length ≤ a.komentar.length)
      (fun a => le_refl _) (fun a b c h1 h2 => le_trans h2 h1)
      (fun o idx j =>
        ⟨(selPick1_spec o idx j).1, (selPick1_spec o idx j).2.1,
          (selPick1_spec o idx j).2.2⟩)
      (s.commentCount - 1) 0 (liveC s ++ out.drop s.commentCount)
      (by rw [harr_len]; omega) (by omega) (by simp)
      (by intro a ha; rw [List.take_zero] at ha; simp at ha)
    rw [harr_take] at hp0 hp1
    exact ⟨⟨hp0, hs0⟩, ⟨hp1, hs1⟩⟩

/-- Witness for C6: the spec's example with text lengths `[5, 2, 8, 2]`. -/
theorem claim_C6_witness :
    (sL.comments.length = 255 ∧ sL.commentCount ≤ 255 ∧ outZ.length = 255) ∧
    ((List.Perm ((sortCommentsByComment sL outZ 0).take sL.commentCount) (liveC sL) ∧
      List.Pairwise (fun a b => a.komentar.length ≤ b.komentar.length)
        ((sortCommentsByComment sL outZ 0).take sL.commentCount)) ∧
    (List.Perm ((sortCommentsByComment sL outZ 1).take sL.commentCount) (liveC sL) ∧
      List.Pairwise (fun a b => b.komentar.length ≤ a.komentar.length)
        ((sortCommentsByComment sL outZ 1).take sL.commentCount))) :=
  ⟨⟨by decide, by decide, by decide⟩,
    claim_C6_length_sort sL outZ (by decide) (by decide) (by decide)⟩

end Tugas
